import Mathlib

/-!
Verification of the snake-game decision core (`snake_game/`): a shallow
embedding of the grid model (`utils.py`), the search engine (`search.py`),
the heuristic library (`heuristics.py`), the primary agent's survival
strategy and flood fill (`agent.py`), and the alpha-beta agent
(`agent_alphabeta.py`), together with proofs of the specified properties.

Cells are integer pairs `(x, y)` as in the source; machine integers are
modelled by `ℤ`/`ℕ` (Python integers are unbounded, so no wraparound is
involved).  Python sets that are only ever tested for membership are
modelled as duplicate-free lists; Python dicts as association lists.
The two worklist loops (`bfs_search`/`astar_search`/flood fill) are given
an explicit fuel that provably dominates their iteration count, so the
embedded functions are total and computable.
-/

set_option maxHeartbeats 1600000

/-- Grid cell `(x, y)`, exactly the `(x, y)` tuples of the source. -/
abbrev Cell : Type := ℤ × ℤ

/-- `utils.is_valid_position`: `0 <= x < grid_cols and 0 <= y < grid_rows`. -/
def is_valid_position (pos : Cell) (grid_rows grid_cols : ℕ) : Bool :=
  decide (0 ≤ pos.1 ∧ pos.1 < (grid_cols : ℤ) ∧ 0 ≤ pos.2 ∧ pos.2 < (grid_rows : ℤ))

/-- The fixed neighbour offsets of `utils.get_neighbors`: up, down, left, right. -/
def directions : List Cell := [(0, -1), (0, 1), (-1, 0), (1, 0)]

/-- `utils.get_neighbors`: the four offset cells, kept in offset order,
filtered by `is_valid_position`. -/
def get_neighbors (pos : Cell) (grid_rows grid_cols : ℕ) : List Cell :=
  (directions.map (fun d => (pos.1 + d.1, pos.2 + d.2))).filter
    (fun np => is_valid_position np grid_rows grid_cols)

/-- `utils.manhattan_distance`: `abs(dx) + abs(dy)` (a nonnegative integer). -/
def manhattan_distance (pos1 pos2 : Cell) : ℕ :=
  (pos1.1 - pos2.1).natAbs + (pos1.2 - pos2.2).natAbs

/-- `search.SearchResult` with the constructor's default values. -/
structure SearchResult where
  path : List Cell := []
  visited : List Cell := []
  frontier : List Cell := []
  nodes_expanded : ℕ := 0
  path_cost : ℕ := 0
  found : Bool := false
  deriving Repr, DecidableEq

/-- Set-semantics insertion for the Python `set.add` on lists kept duplicate-free. -/
def setAdd (l : List Cell) (c : Cell) : List Cell :=
  if c ∈ l then l else l ++ [c]

/-- Loop body of `search.simulate_snake_movement`: replay the remaining path
cells one at a time, inserting the new head and popping the tail, and fail
the moment the stepped-to cell lies in the rest of the simulated body. -/
def simulate_steps : List Cell → List Cell → Bool
  | _, [] => true
  | sim_snake, next_pos :: rest =>
    let sim2 := (next_pos :: sim_snake).dropLast
    if next_pos ∈ sim2.drop 1 then false
    else simulate_steps sim2 rest

/-- `search.simulate_snake_movement`: replays `path[1:]` against a copy of the body. -/
def simulate_snake_movement (snake_body : List Cell) (path : List Cell) : Bool :=
  simulate_steps snake_body (path.drop 1)

/-- The two heuristic function objects of `heuristics.py` (`manhattan_heuristic`
wraps `utils.manhattan_distance`; `euclidean_heuristic` wraps the floating-point
`utils.euclidean_distance`, whose exact value model appears below). -/
inductive HeuristicFn where
  | manhattan_heuristic
  | euclidean_heuristic
  deriving Repr, DecidableEq

/-- Model of Python `str.lower()`, character-wise lower-casing (kernel-reducible,
unlike `String.toLower`, and agreeing with it on these ASCII names). -/
def py_lower (s : String) : String := String.mk (s.data.map Char.toLower)

/-- `heuristics.get_heuristic`: dictionary lookup on the lower-cased name with
`manhattan_heuristic` as the default (`heuristics.get(name.lower(), manhattan_heuristic)`). -/
def get_heuristic (name : String) : HeuristicFn :=
  if py_lower name = "manhattan" then HeuristicFn.manhattan_heuristic
  else if py_lower name = "euclidean" then HeuristicFn.euclidean_heuristic
  else HeuristicFn.manhattan_heuristic

/-! ### BFS (`search.bfs_search`) -/

/-- Worklist loop of `search.bfs_search`.  The queue holds `(position, path)`
pairs; neighbours not yet visited and not obstacles are marked visited and
enqueued; the frontier set gains the fresh cells and drops the dequeued one.
Fuel stands in for the `while queue:` loop; `bfs_search` supplies enough fuel
for the loop to always reach its natural exit. -/
def bfsLoop (goal : Cell) (obstacles : List Cell) (grid_rows grid_cols : ℕ) :
    ℕ → List (Cell × List Cell) → List Cell → List Cell → ℕ → SearchResult
  | 0, _, visited, frontier, nodes_expanded =>
      { visited := visited, frontier := frontier, nodes_expanded := nodes_expanded }
  | _ + 1, [], visited, frontier, nodes_expanded =>
      { visited := visited, frontier := frontier, nodes_expanded := nodes_expanded }
  | fuel + 1, (current, path) :: queue_rest, visited, frontier, nodes_expanded =>
    if current = goal then
      { path := path, visited := visited, frontier := frontier,
        nodes_expanded := nodes_expanded + 1, path_cost := path.length, found := true }
    else
      let fresh := (get_neighbors current grid_rows grid_cols).filter
        (fun n => decide (n ∉ visited) && decide (n ∉ obstacles))
      bfsLoop goal obstacles grid_rows grid_cols fuel
        (queue_rest ++ fresh.map (fun n => (n, path ++ [n])))
        (visited ++ fresh)
        ((fresh.foldl setAdd frontier).erase current)
        (nodes_expanded + 1)

/-- `search.bfs_search`: queue starts at `[(start, [start])]`, visited at
`{start}`.  The fuel `2*rows*cols + 2` dominates the iteration count (each
iteration removes a queue entry, and entries are only created for freshly
visited in-bounds cells). -/
def bfs_search (start goal : Cell) (obstacles : List Cell) (grid_rows grid_cols : ℕ) :
    SearchResult :=
  bfsLoop goal obstacles grid_rows grid_cols (2 * (grid_rows * grid_cols) + 2)
    [(start, [start])] [start] [] 0

/-! ### A* (`search.astar_search`) -/

/-- One entry of the A* priority heap: `(f_score, counter, current, path, g_score)`.
The priority type `τ` abstracts the numeric type of `f`; with the manhattan
heuristic every score is a natural number, with the euclidean one it is the
exact real `a + sqrt s` coded as the pair `(a, s)`. -/
structure AstarEntry (τ : Type) where
  f : τ
  counter : ℕ
  node : Cell
  path : List Cell
  g : ℕ
  deriving Repr, DecidableEq

/-- Ordering of heap entries as `heapq` compares the source's tuples: by `f`,
then by the (always distinct) insertion counter, so later components are
never compared. -/
def entryLt {τ : Type} (lt : τ → τ → Bool) (e₁ e₂ : AstarEntry τ) : Bool :=
  lt e₁.f e₂.f || (!lt e₂.f e₁.f && decide (e₁.counter < e₂.counter))

/-- Select the `heapq`-least entry of `best :: l` and return it along with the
remaining entries. -/
def popMinGo {τ : Type} (lt : τ → τ → Bool) :
    AstarEntry τ → List (AstarEntry τ) → AstarEntry τ × List (AstarEntry τ)
  | best, [] => (best, [])
  | best, x :: xs =>
    if entryLt lt x best then
      let r := popMinGo lt x xs
      (r.1, best :: r.2)
    else
      let r := popMinGo lt best xs
      (r.1, x :: r.2)

/-- `heapq.heappop` on the heap contents: returns the least entry and the rest,
or `none` on an empty heap (where the source's `while heap:` loop exits). -/
def popMin {τ : Type} (lt : τ → τ → Bool) :
    List (AstarEntry τ) → Option (AstarEntry τ × List (AstarEntry τ))
  | [] => none
  | e :: es => some (popMinGo lt e es)

/-- Lookup in the `g_scores` dict, modelled as an association list. -/
def lookupG : List (Cell × ℕ) → Cell → Option ℕ
  | [], _ => none
  | (c, g) :: rest, key => if c = key then some g else lookupG rest key

/-- Assignment `g_scores[key] = v` on the association list (overwrite or append). -/
def setG : List (Cell × ℕ) → Cell → ℕ → List (Cell × ℕ)
  | [], key, v => [(key, v)]
  | (c, g) :: rest, key, v =>
    if c = key then (key, v) :: rest else (c, g) :: setG rest key v

/-- The neighbour-expansion loop of `astar_search` for one dequeued node with
path `cur_path` and cost `cur_g`: skip visited/obstacle neighbours, and push a
new heap entry (bumping the counter and recording the improved `g_score`) when
the neighbour is undiscovered or strictly improved. -/
def astarExpand {τ : Type} (goal : Cell) (obstacles : List Cell)
    (lt : τ → τ → Bool) (fPlus : ℕ → τ → τ) (hfun : Cell → Cell → τ)
    (visited : List Cell) (cur_path : List Cell) (cur_g : ℕ) :
    List Cell → List (AstarEntry τ) → List Cell → List (Cell × ℕ) → ℕ →
    List (AstarEntry τ) × List Cell × List (Cell × ℕ) × ℕ
  | [], heap, frontier, g_scores, counter => (heap, frontier, g_scores, counter)
  | n :: ns, heap, frontier, g_scores, counter =>
    if n ∈ visited ∨ n ∈ obstacles then
      astarExpand goal obstacles lt fPlus hfun visited cur_path cur_g ns
        heap frontier g_scores counter
    else
      let new_g := cur_g + 1
      let better : Bool := match lookupG g_scores n with
        | none => true
        | some old => decide (new_g < old)
      if better then
        astarExpand goal obstacles lt fPlus hfun visited cur_path cur_g ns
          (heap ++ [⟨fPlus new_g (hfun n goal), counter + 1, n, cur_path ++ [n], new_g⟩])
          (setAdd frontier n)
          (setG g_scores n new_g)
          (counter + 1)
      else
        astarExpand goal obstacles lt fPlus hfun visited cur_path cur_g ns
          heap frontier g_scores counter

/-- Worklist loop of `search.astar_search`: pop the least entry, skip it when
already visited, otherwise finalize it, return at the goal (with `path_cost`
the entry's `g_score`), and expand the neighbours otherwise. -/
def astarLoop {τ : Type} (goal : Cell) (obstacles : List Cell) (grid_rows grid_cols : ℕ)
    (lt : τ → τ → Bool) (fPlus : ℕ → τ → τ) (hfun : Cell → Cell → τ) :
    ℕ → List (AstarEntry τ) → List Cell → List Cell → List (Cell × ℕ) → ℕ → ℕ →
    SearchResult
  | 0, _, visited, frontier, _, nodes_expanded, _ =>
      { visited := visited, frontier := frontier, nodes_expanded := nodes_expanded }
  | fuel + 1, heap, visited, frontier, g_scores, nodes_expanded, counter =>
    match popMin lt heap with
    | none =>
      { visited := visited, frontier := frontier, nodes_expanded := nodes_expanded }
    | some (e, rest) =>
      if e.node ∈ visited then
        astarLoop goal obstacles grid_rows grid_cols lt fPlus hfun fuel
          rest visited frontier g_scores nodes_expanded counter
      else
        let visited2 := visited ++ [e.node]
        let frontier2 := frontier.erase e.node
        if e.node = goal then
          { path := e.path, visited := visited2, frontier := frontier2,
            nodes_expanded := nodes_expanded + 1, path_cost := e.g, found := true }
        else
          let s := astarExpand goal obstacles lt fPlus hfun visited2 e.path e.g
            (get_neighbors e.node grid_rows grid_cols) rest frontier2 g_scores counter
          astarLoop goal obstacles grid_rows grid_cols lt fPlus hfun fuel
            s.1 visited2 s.2.1 s.2.2.1 (nodes_expanded + 1) s.2.2.2

/-- Value of the manhattan heuristic inside A*: a natural number. -/
def manhattanHval (p q : Cell) : ℕ := manhattan_distance p q

/-- `f = g + h` for natural-valued heuristics. -/
def natFplus (g : ℕ) (h : ℕ) : ℕ := g + h

/-- Strict order on natural f-scores. -/
def natLtB (a b : ℕ) : Bool := decide (a < b)

/-- Value of the euclidean heuristic inside A*: the source computes the float
`(dx*dx + dy*dy) ** 0.5`; the exact real `sqrt s` is coded as the pair `(0, s)`
with `s = dx*dx + dy*dy`, and an f-score `(a, s)` denotes `a + sqrt s`. -/
def euclideanHval (p q : Cell) : ℕ × ℕ :=
  (0, ((p.1 - q.1) * (p.1 - q.1) + (p.2 - q.2) * (p.2 - q.2)).toNat)

/-- `f = g + h` on coded euclidean scores: `g + (a + sqrt s) = (g + a) + sqrt s`. -/
def euclidFplus (g : ℕ) (x : ℕ × ℕ) : ℕ × ℕ := (g + x.1, x.2)

/-- Exact decision of `a₁ + sqrt s₁ < a₂ + sqrt s₂` by integer arithmetic
(case split on the sign of `d = a₂ - a₁`, squaring away the square roots). -/
def sqrtLtVal (a₁ s₁ a₂ s₂ : ℕ) : Bool :=
  let d : ℤ := (a₂ : ℤ) - (a₁ : ℤ)
  if 0 ≤ d then
    let t : ℤ := (s₁ : ℤ) - d * d - (s₂ : ℤ)
    decide (t < 0) || decide (t * t < 4 * (d * d) * (s₂ : ℤ))
  else
    let u : ℤ := (s₂ : ℤ) - (s₁ : ℤ) - d * d
    decide (0 < u) && decide (4 * (d * d) * (s₁ : ℤ) < u * u)

/-- Strict order on coded euclidean f-scores. -/
def euclidLtB (x y : ℕ × ℕ) : Bool := sqrtLtVal x.1 x.2 y.1 y.2

/-- `search.astar_search`: resolve the heuristic by name, seed the heap with
`(h(start, goal), 0, start, [start], 0)`, the frontier with `{start}` and
`g_scores` with `{start: 0}`, then run the loop.  The fuel `5*rows*cols + 6`
dominates the iteration count. -/
def astar_search (start goal : Cell) (obstacles : List Cell) (grid_rows grid_cols : ℕ)
    (heuristic_name : String) : SearchResult :=
  match get_heuristic heuristic_name with
  | HeuristicFn.manhattan_heuristic =>
    astarLoop goal obstacles grid_rows grid_cols natLtB natFplus manhattanHval
      (5 * (grid_rows * grid_cols) + 6)
      [⟨manhattanHval start goal, 0, start, [start], 0⟩] [] [start] [(start, 0)] 0 0
  | HeuristicFn.euclidean_heuristic =>
    astarLoop goal obstacles grid_rows grid_cols euclidLtB euclidFplus euclideanHval
      (5 * (grid_rows * grid_cols) + 6)
      [⟨euclideanHval start goal, 0, start, [start], 0⟩] [] [start] [(start, 0)] 0 0

/-! ### Basic facts about the worklist primitives -/

lemma entryLt_natLtB_iff (a b : AstarEntry ℕ) :
    entryLt natLtB a b = true ↔ (a.f < b.f ∨ (a.f ≤ b.f ∧ a.counter < b.counter)) := by
  simp only [entryLt, natLtB, Bool.or_eq_true, Bool.and_eq_true, Bool.not_eq_true',
    decide_eq_true_eq, decide_eq_false_iff_not]
  omega

lemma popMinGo_perm {τ : Type} (lt : τ → τ → Bool) (e : AstarEntry τ)
    (l : List (AstarEntry τ)) :
    List.Perm (e :: l) ((popMinGo lt e l).1 :: (popMinGo lt e l).2) := by
  induction l generalizing e with
  | nil => simp [popMinGo]
  | cons x xs ih =>
    by_cases h : entryLt lt x e = true
    · have hred : popMinGo lt e (x :: xs) =
          ((popMinGo lt x xs).1, e :: (popMinGo lt x xs).2) := by
        simp [popMinGo, h]
      rw [hred]
      exact (List.Perm.cons e (ih x)).trans (List.Perm.swap _ _ _)
    · have hred : popMinGo lt e (x :: xs) =
          ((popMinGo lt e xs).1, x :: (popMinGo lt e xs).2) := by
        simp [popMinGo, h]
      rw [hred]
      exact ((List.Perm.swap x e xs).trans (List.Perm.cons x (ih e))).trans
        (List.Perm.swap _ _ _)

lemma popMinGo_min (e : AstarEntry ℕ) (l : List (AstarEntry ℕ)) :
    ∀ x ∈ e :: l, ¬ entryLt natLtB x (popMinGo natLtB e l).1 = true := by
  induction l generalizing e with
  | nil =>
    intro x hx
    simp only [List.mem_singleton] at hx
    subst hx
    change ¬ entryLt natLtB x x = true
    rw [entryLt_natLtB_iff]
    omega
  | cons y ys ih =>
    intro x hx
    simp only [List.mem_cons] at hx
    by_cases h : entryLt natLtB y e = true
    · have hred : (popMinGo natLtB e (y :: ys)).1 = (popMinGo natLtB y ys).1 := by
        simp [popMinGo, h]
      rw [hred]
      rcases hx with hx | hx | hx
      · rw [hx]
        have he := ih y y (by simp)
        rw [entryLt_natLtB_iff] at h he ⊢
        omega
      · rw [hx]
        exact ih y y (by simp)
      · exact ih y x (by simp [hx])
    · have hred : (popMinGo natLtB e (y :: ys)).1 = (popMinGo natLtB e ys).1 := by
        simp [popMinGo, h]
      rw [hred]
      rcases hx with hx | hx | hx
      · rw [hx]
        exact ih e e (by simp)
      · rw [hx]
        have he := ih e e (by simp)
        rw [entryLt_natLtB_iff] at he ⊢
        rw [entryLt_natLtB_iff] at h
        omega
      · exact ih e x (by simp [hx])

lemma popMin_eq_some {τ : Type} (lt : τ → τ → Bool) (e : AstarEntry τ)
    (l : List (AstarEntry τ)) :
    popMin lt (e :: l) = some (popMinGo lt e l) := rfl

/-- Minimality of the popped entry under the `heapq` tuple order: any remaining
or popped entry is at least the popped one in the lexicographic `(f, counter)`
order. -/
lemma popMin_min {heap : List (AstarEntry ℕ)} {e : AstarEntry ℕ}
    {rest : List (AstarEntry ℕ)} (hpop : popMin natLtB heap = some (e, rest)) :
    ∀ x ∈ heap, e.f < x.f ∨ (e.f = x.f ∧ e.counter ≤ x.counter) := by
  intro x hx
  cases heap with
  | nil => simp [popMin] at hpop
  | cons b bs =>
    rw [popMin_eq_some] at hpop
    have hmin := popMinGo_min b bs x hx
    have h1 : (popMinGo natLtB b bs).1 = e := by
      have := Option.some.inj hpop
      rw [this]
    rw [h1, entryLt_natLtB_iff] at hmin
    omega

lemma popMin_perm {τ : Type} (lt : τ → τ → Bool) {heap : List (AstarEntry τ)}
    {e : AstarEntry τ} {rest : List (AstarEntry τ)}
    (hpop : popMin lt heap = some (e, rest)) : List.Perm heap (e :: rest) := by
  cases heap with
  | nil => simp [popMin] at hpop
  | cons b bs =>
    rw [popMin_eq_some] at hpop
    have hp := popMinGo_perm lt b bs
    have h1 := Option.some.inj hpop
    rw [h1] at hp
    exact hp

/-! ### C9: heuristic lookup is total with manhattan fallback -/

/-- C9: for every heuristic-name string, `get_heuristic` returns a heuristic
function: the euclidean one exactly when the lower-cased name is `euclidean`,
and the manhattan one for `manhattan` and for every other name. -/
theorem get_heuristic_dispatch (name : String) :
    (py_lower name = "euclidean" → get_heuristic name = HeuristicFn.euclidean_heuristic) ∧
    (py_lower name = "manhattan" → get_heuristic name = HeuristicFn.manhattan_heuristic) ∧
    (py_lower name ≠ "euclidean" → get_heuristic name = HeuristicFn.manhattan_heuristic) := by
  refine ⟨fun h => ?_, fun h => ?_, fun h => ?_⟩
  · have hm : py_lower name ≠ "manhattan" := by rw [h]; decide
    simp [get_heuristic, h, hm]
  · simp [get_heuristic, h]
  · by_cases hm : py_lower name = "manhattan" <;> simp [get_heuristic, h, hm]

/-- Witness for C9 at the concrete names `"EUCLIDEAN"`, `"manhattan"` and `"foo"`. -/
theorem get_heuristic_dispatch_witness :
    get_heuristic "EUCLIDEAN" = HeuristicFn.euclidean_heuristic ∧
    get_heuristic "manhattan" = HeuristicFn.manhattan_heuristic ∧
    get_heuristic "foo" = HeuristicFn.manhattan_heuristic :=
  ⟨(get_heuristic_dispatch "EUCLIDEAN").1 (by decide),
   (get_heuristic_dispatch "manhattan").2.1 (by decide),
   (get_heuristic_dispatch "foo").2.2 (by decide)⟩

/-! ### C6: the movement simulator accepts exactly the collision-free replays -/

/-- Specification-side replay step: simultaneous head-insert and tail-pop
with no growth. -/
def stepBody (b : List Cell) (p : Cell) : List Cell := (p :: b).dropLast

/-- Specification-side body after replaying a list of stepped-to cells in order. -/
def bodyAfter (b : List Cell) (steps : List Cell) : List Cell := steps.foldl stepBody b

/-- Specification-side collision predicate, following the claim's words: some
stepped-to cell coincides with another cell of the simulated body at that step. -/
def ReplayCollides (b : List Cell) (steps : List Cell) : Prop :=
  ∃ i, ∃ h : i < steps.length,
    steps.get ⟨i, h⟩ ∈ (bodyAfter b (steps.take (i + 1))).drop 1

lemma simulate_steps_false_iff (steps : List Cell) (b : List Cell) :
    simulate_steps b steps = false ↔ ReplayCollides b steps := by
  induction steps generalizing b with
  | nil => simp [simulate_steps, ReplayCollides]
  | cons p rest ih =>
    by_cases hc : p ∈ ((p :: b).dropLast).tail
    · have hred : simulate_steps b (p :: rest) = false := by
        simp [simulate_steps, List.drop_one, hc]
      rw [hred]
      simp only [true_iff, eq_self_iff_true]
      exact ⟨0, by simp, by simpa [bodyAfter, stepBody, List.drop_one] using hc⟩
    · have hred : simulate_steps b (p :: rest) =
          simulate_steps ((p :: b).dropLast) rest := by
        simp [simulate_steps, List.drop_one, hc]
      rw [hred, ih]
      constructor
      · rintro ⟨i, h, hm⟩
        refine ⟨i + 1, by simpa using h, ?_⟩
        simpa [bodyAfter, stepBody, List.take_succ_cons] using hm
      · rintro ⟨i, h, hm⟩
        match i, h with
        | 0, h =>
          exfalso
          apply hc
          simpa [bodyAfter, stepBody, List.drop_one] using hm
        | i + 1, h =>
          refine ⟨i, by simpa using h, ?_⟩
          simpa [bodyAfter, stepBody, List.take_succ_cons] using hm

/-- C6: for every duplicate-free head-first body and path starting at the head,
`simulate_snake_movement` returns `false` exactly when some replay step's cell
coincides with another cell of the simulated body at that step, and `true`
exactly when the whole path replays without such a collision. -/
theorem simulate_snake_movement_iff (body path : List Cell)
    (hne : body ≠ []) (hnd : body.Nodup) (hstart : path.head? = body.head?) :
    (simulate_snake_movement body path = false ↔ ReplayCollides body (path.drop 1)) ∧
    (simulate_snake_movement body path = true ↔ ¬ ReplayCollides body (path.drop 1)) := by
  have h := simulate_steps_false_iff (path.drop 1) body
  refine ⟨h, ?_⟩
  rw [← h]
  cases hb : simulate_snake_movement body path <;>
    simp [simulate_snake_movement] at hb ⊢ <;> simp [hb]

/-- Witness for C6: the two concrete replays of the repository's own examples —
a straight run into empty cells is accepted, and a move onto the rest of the
body is detected through the collision predicate. -/
theorem simulate_snake_movement_iff_witness :
    (simulate_snake_movement [(5, 5), (5, 4), (5, 3)] [(5, 5), (6, 5), (7, 5)] = true ↔
      ¬ ReplayCollides [(5, 5), (5, 4), (5, 3)] [(6, 5), (7, 5)]) ∧
    (simulate_snake_movement [(5, 5), (6, 5), (5, 4)] [(5, 5), (6, 5)] = false ↔
      ReplayCollides [(5, 5), (6, 5), (5, 4)] [(6, 5)]) :=
  ⟨(simulate_snake_movement_iff [(5, 5), (5, 4), (5, 3)] [(5, 5), (6, 5), (7, 5)]
      (by decide) (by decide) (by decide)).2,
   (simulate_snake_movement_iff [(5, 5), (6, 5), (5, 4)] [(5, 5), (6, 5)]
      (by decide) (by decide) (by decide)).1⟩

/-! ### C2 (corrected): searches with start equal to goal -/

lemma bfs_search_self (c : Cell) (obst : List Cell) (rows cols : ℕ) :
    bfs_search c c obst rows cols =
      { path := [c], visited := [c], frontier := [],
        nodes_expanded := 1, path_cost := 1, found := true } := by
  have hf : 2 * (rows * cols) + 2 = (2 * (rows * cols) + 1) + 1 := by omega
  rw [bfs_search, hf]
  simp [bfsLoop]

lemma astarLoop_self {τ : Type} (goal : Cell) (obst : List Cell) (rows cols : ℕ)
    (lt : τ → τ → Bool) (fPlus : ℕ → τ → τ) (hfun : Cell → Cell → τ)
    (fuel : ℕ) (f0 : τ) (fr : List Cell) (gs : List (Cell × ℕ)) :
    astarLoop goal obst rows cols lt fPlus hfun (fuel + 1)
      [⟨f0, 0, goal, [goal], 0⟩] [] fr gs 0 0 =
      { path := [goal], visited := [goal], frontier := fr.erase goal,
        nodes_expanded := 1, path_cost := 0, found := true } := by
  simp [astarLoop, popMin, popMinGo]

lemma astar_search_self (c : Cell) (obst : List Cell) (rows cols : ℕ)
    (hname : String) :
    astar_search c c obst rows cols hname =
      { path := [c], visited := [c], frontier := [],
        nodes_expanded := 1, path_cost := 0, found := true } := by
  have hf : 5 * (rows * cols) + 6 = (5 * (rows * cols) + 5) + 1 := by omega
  unfold astar_search
  cases hget : get_heuristic hname <;>
    simp only [hf] <;> rw [astarLoop_self] <;> simp

/-- Counterexample to C2 as stated: with start = goal, `bfs_search` reports
`path_cost = 1` (it always reports `len(path)`), not `0`. -/
theorem start_eq_goal_counterexample :
    ¬ (bfs_search (3, 3) (3, 3) [] 10 10).path_cost = 0 := by
  rw [bfs_search_self]
  decide

/-- C2 (amended): with start = goal = c, in bounds and not an obstacle, both
searches return `found = true` and the one-element path `[c]`; `astar_search`
reports `path_cost = 0` while `bfs_search` reports `path_cost = 1` (the length
of the one-cell path, since it reports `len(path)`). -/
theorem start_eq_goal_amended (c : Cell) (obst : List Cell) (rows cols : ℕ)
    (hname : String) (hvalid : is_valid_position c rows cols = true)
    (hfree : c ∉ obst) :
    (bfs_search c c obst rows cols).found = true ∧
    (bfs_search c c obst rows cols).path = [c] ∧
    (bfs_search c c obst rows cols).path_cost = 1 ∧
    (astar_search c c obst rows cols hname).found = true ∧
    (astar_search c c obst rows cols hname).path = [c] ∧
    (astar_search c c obst rows cols hname).path_cost = 0 := by
  rw [bfs_search_self, astar_search_self]
  simp

/-- Witness for C2 (amended) at the concrete cell (3, 3) on a 10 by 10 grid. -/
theorem start_eq_goal_amended_witness :
    (bfs_search (3, 3) (3, 3) [] 10 10).found = true ∧
    (bfs_search (3, 3) (3, 3) [] 10 10).path = [(3, 3)] ∧
    (bfs_search (3, 3) (3, 3) [] 10 10).path_cost = 1 ∧
    (astar_search (3, 3) (3, 3) [] 10 10 "manhattan").found = true ∧
    (astar_search (3, 3) (3, 3) [] 10 10 "manhattan").path = [(3, 3)] ∧
    (astar_search (3, 3) (3, 3) [] 10 10 "manhattan").path_cost = 0 :=
  start_eq_goal_amended (3, 3) [] 10 10 "manhattan" (by decide) (by decide)

/-! ### C7: determinism of the searches, with the counter tie-break -/

/-- C7: repeated calls with identical inputs return identical results (the
embedded searches are functions of their arguments alone), and the heap pop is
uniquely determined: the popped entry is least in the lexicographic
`(f, counter)` order, ties in `f` being broken by the insertion counter. -/
theorem searches_deterministic (start goal : Cell) (obst : List Cell)
    (rows cols : ℕ) (hname : String) (heap : List (AstarEntry ℕ))
    (e : AstarEntry ℕ) (rest : List (AstarEntry ℕ)) :
    (bfs_search start goal obst rows cols = bfs_search start goal obst rows cols ∧
     astar_search start goal obst rows cols hname =
       astar_search start goal obst rows cols hname) ∧
    (popMin natLtB heap = some (e, rest) →
      ∀ x ∈ heap, e.f < x.f ∨ (e.f = x.f ∧ e.counter ≤ x.counter)) :=
  ⟨⟨rfl, rfl⟩, fun hpop => popMin_min hpop⟩

/-- Witness for C7: a two-entry heap with equal f-scores pops the entry with
the smaller insertion counter. -/
theorem searches_deterministic_witness :
    astar_search (0, 0) (2, 2) [] 5 5 "manhattan" =
      astar_search (0, 0) (2, 2) [] 5 5 "manhattan" ∧
    ((3 : ℕ) < 3 ∨ ((3 : ℕ) = 3 ∧ (0 : ℕ) ≤ 1)) := by
  have h := searches_deterministic (0, 0) (2, 2) [] 5 5 "manhattan"
    [AstarEntry.mk 3 1 (0, 0) [(0, 0)] 0, AstarEntry.mk 3 0 (1, 1) [(1, 1)] 0]
    (AstarEntry.mk 3 0 (1, 1) [(1, 1)] 0) [AstarEntry.mk 3 1 (0, 0) [(0, 0)] 0]
  refine ⟨h.1.2, ?_⟩
  have h2 := h.2 (by decide) (AstarEntry.mk 3 1 (0, 0) [(0, 0)] 0) (by simp)
  simpa using h2

/-! ### Grid enumeration and the termination measure of the worklist loops -/

/-- All in-bounds cells of the grid, column by column. -/
def gridCells (grid_rows grid_cols : ℕ) : List Cell :=
  (List.range grid_cols).flatMap
    (fun (x : ℕ) => (List.range grid_rows).map (fun (y : ℕ) => ((x : ℤ), (y : ℤ))))

lemma mem_gridCells {c : Cell} {rows cols : ℕ} :
    c ∈ gridCells rows cols ↔ is_valid_position c rows cols = true := by
  constructor
  · intro h
    rw [gridCells, List.mem_flatMap] at h
    obtain ⟨x, hx, h⟩ := h
    rw [List.mem_map] at h
    obtain ⟨y, hy, rfl⟩ := h
    rw [List.mem_range] at hx hy
    simp only [is_valid_position, decide_eq_true_eq]
    exact ⟨Int.natCast_nonneg x, by exact_mod_cast hx,
      Int.natCast_nonneg y, by exact_mod_cast hy⟩
  · intro h
    simp only [is_valid_position, decide_eq_true_eq] at h
    obtain ⟨h1, h2, h3, h4⟩ := h
    rw [gridCells, List.mem_flatMap]
    refine ⟨c.1.toNat, ?_, ?_⟩
    · rw [List.mem_range]
      omega
    · rw [List.mem_map]
      refine ⟨c.2.toNat, ?_, ?_⟩
      · rw [List.mem_range]
        omega
      · rw [Int.toNat_of_nonneg h1, Int.toNat_of_nonneg h3]

lemma gridCells_nodup (rows cols : ℕ) : (gridCells rows cols).Nodup := by
  rw [gridCells, List.nodup_flatMap]
  constructor
  · intro x _
    refine List.Nodup.map ?_ (List.nodup_range rows)
    intro a b h
    have h2 := congrArg Prod.snd h
    simpa using h2
  · refine List.Pairwise.imp ?_ (List.nodup_range cols)
    intro a b hab
    intro z hza hzb
    simp only [List.mem_map, List.mem_range] at hza hzb
    obtain ⟨y1, _, rfl⟩ := hza
    obtain ⟨y2, _, h2⟩ := hzb
    have h3 := congrArg Prod.fst h2
    simp only at h3
    exact hab (by exact_mod_cast h3.symm)

lemma gridCells_length (rows cols : ℕ) :
    (gridCells rows cols).length = cols * rows := by
  rw [gridCells, List.length_flatMap]
  simp [Function.comp_def, mul_comm]

/-- The cells any worklist state can ever contain: the in-bounds cells plus
the (possibly out-of-bounds) start cell. -/
def vplus (start : Cell) (rows cols : ℕ) : List Cell :=
  if start ∈ gridCells rows cols then gridCells rows cols
  else start :: gridCells rows cols

lemma vplus_nodup (start : Cell) (rows cols : ℕ) : (vplus start rows cols).Nodup := by
  unfold vplus
  split
  · exact gridCells_nodup rows cols
  · exact List.Nodup.cons (by assumption) (gridCells_nodup rows cols)

lemma start_mem_vplus (start : Cell) (rows cols : ℕ) : start ∈ vplus start rows cols := by
  unfold vplus
  split
  · assumption
  · exact List.mem_cons_self _ _

lemma gridCells_subset_vplus (start : Cell) (rows cols : ℕ) :
    gridCells rows cols ⊆ vplus start rows cols := by
  unfold vplus
  split
  · exact fun _ h => h
  · exact fun _ h => List.mem_cons_of_mem _ h

lemma vplus_length_le (start : Cell) (rows cols : ℕ) :
    (vplus start rows cols).length ≤ cols * rows + 1 := by
  unfold vplus
  split
  · rw [gridCells_length]; omega
  · simp [gridCells_length]

/-- Number of potential worklist cells not yet visited; the potential function
of the loops is built from this. -/
def unseen (start : Cell) (rows cols : ℕ) (visited : List Cell) : ℕ :=
  ((vplus start rows cols).filter (fun c => decide (c ∉ visited))).length

lemma unseen_le (start : Cell) (rows cols : ℕ) (visited : List Cell) :
    unseen start rows cols visited ≤ cols * rows + 1 :=
  le_trans (List.length_filter_le _ _) (vplus_length_le start rows cols)

lemma filter_length_mono {α : Type} (l : List α) (p q : α → Bool)
    (h : ∀ a, q a = true → p a = true) :
    (l.filter q).length ≤ (l.filter p).length := by
  induction l with
  | nil => simp
  | cons a as ih =>
    rw [List.filter_cons, List.filter_cons]
    by_cases hq : q a = true
    · rw [if_pos hq, if_pos (h a hq)]
      simp only [List.length_cons]
      omega
    · rw [if_neg hq]
      split
      · exact le_trans ih (by simp only [List.length_cons]; omega)
      · exact ih

lemma unseen_mono (start : Cell) (rows cols : ℕ) (visited ext : List Cell) :
    unseen start rows cols (visited ++ ext) ≤ unseen start rows cols visited := by
  apply filter_length_mono
  intro a ha
  simp only [decide_eq_true_eq, List.mem_append] at ha ⊢
  tauto

/-- Key accounting step: appending `fresh` unvisited potential cells to the
visited list lowers `unseen` by at least `fresh.length`. -/
lemma unseen_append (start : Cell) (rows cols : ℕ) (visited fresh : List Cell)
    (hnd : fresh.Nodup) (hsub : ∀ x ∈ fresh, x ∈ vplus start rows cols)
    (hdis : ∀ x ∈ fresh, x ∉ visited) :
    unseen start rows cols (visited ++ fresh) + fresh.length ≤
      unseen start rows cols visited := by
  unfold unseen
  have hfsub : fresh ⊆ ((vplus start rows cols).filter
      (fun c => decide (c ∉ visited))).filter (fun c => decide (c ∈ fresh)) := by
    intro x hx
    simp only [List.mem_filter, decide_eq_true_eq]
    exact ⟨⟨hsub x hx, hdis x hx⟩, hx⟩
  have hge : fresh.length ≤ (((vplus start rows cols).filter
      (fun c => decide (c ∉ visited))).filter (fun c => decide (c ∈ fresh))).length :=
    (hnd.subperm hfsub).length_le
  have hnew : ((vplus start rows cols).filter (fun c => decide (c ∉ visited ++ fresh))).length
      ≤ (((vplus start rows cols).filter (fun c => decide (c ∉ visited))).filter
        (fun x => !(decide (x ∈ fresh)))).length := by
    rw [List.filter_filter]
    apply filter_length_mono
    intro a ha
    simp only [decide_eq_true_eq, List.mem_append, Bool.and_eq_true, Bool.not_eq_true',
      decide_eq_false_iff_not] at ha ⊢
    tauto
  have hsplit := List.length_eq_length_filter_add
    (l := (vplus start rows cols).filter (fun c => decide (c ∉ visited)))
    (fun c => decide (c ∈ fresh))
  rw [hsplit]
  have hcomb := Nat.add_le_add hnew hge
  exact hcomb.trans (le_of_eq (Nat.add_comm _ _))

/-! ### Set-insertion folds and neighbourhood facts -/

lemma mem_setAdd {l : List Cell} {c x : Cell} : x ∈ setAdd l c ↔ x ∈ l ∨ x = c := by
  unfold setAdd
  split
  · rename_i hmem
    constructor
    · exact Or.inl
    · rintro (h | rfl)
      · exact h
      · exact hmem
  · simp

lemma setAdd_nodup {l : List Cell} (h : l.Nodup) (c : Cell) : (setAdd l c).Nodup := by
  unfold setAdd
  split
  · exact h
  · rename_i hmem
    simpa [List.nodup_append] using ⟨h, hmem⟩

lemma mem_foldl_setAdd (L : List Cell) (acc : List Cell) (x : Cell) :
    x ∈ L.foldl setAdd acc ↔ x ∈ acc ∨ x ∈ L := by
  induction L generalizing acc with
  | nil => simp
  | cons a as ih =>
    rw [List.foldl_cons, ih, mem_setAdd]
    simp only [List.mem_cons]
    tauto

lemma foldl_setAdd_nodup (L : List Cell) (acc : List Cell) (h : acc.Nodup) :
    (L.foldl setAdd acc).Nodup := by
  induction L generalizing acc with
  | nil => exact h
  | cons a as ih => exact ih _ (setAdd_nodup h a)

lemma mem_get_neighbors {n p : Cell} {rows cols : ℕ} :
    n ∈ get_neighbors p rows cols ↔
      ((∃ d ∈ directions, (p.1 + d.1, p.2 + d.2) = n) ∧
        is_valid_position n rows cols = true) := by
  unfold get_neighbors
  rw [List.mem_filter, List.mem_map]

lemma get_neighbors_valid {n p : Cell} {rows cols : ℕ}
    (h : n ∈ get_neighbors p rows cols) : is_valid_position n rows cols = true :=
  (mem_get_neighbors.mp h).2

lemma get_neighbors_mem_grid {n p : Cell} {rows cols : ℕ}
    (h : n ∈ get_neighbors p rows cols) : n ∈ gridCells rows cols :=
  mem_gridCells.mpr (get_neighbors_valid h)

lemma get_neighbors_length_le (p : Cell) (rows cols : ℕ) :
    (get_neighbors p rows cols).length ≤ 4 :=
  le_trans (List.length_filter_le _ _) (by simp [directions])

lemma manhattan_succ_of_neighbor {n p q : Cell} {rows cols : ℕ}
    (h : n ∈ get_neighbors p rows cols) :
    manhattan_distance q n ≤ manhattan_distance q p + 1 ∧
      manhattan_distance q p ≤ manhattan_distance q n + 1 := by
  obtain ⟨⟨d, hd, he⟩, -⟩ := mem_get_neighbors.mp h
  simp only [directions, List.mem_cons, List.not_mem_nil, or_false] at hd
  rcases hd with rfl | rfl | rfl | rfl <;>
    (rw [← he]; unfold manhattan_distance; constructor <;> simp <;> omega)

/-! ### Reachability within a bounded number of hops -/

/-- Reachability in at most `k` hops from `start`: each hop moves to an
in-bounds grid neighbour that is not an obstacle (the start cell itself is
reachable unconditionally, matching the flood fill and the searches, which
never test the start against the obstacle set). -/
inductive ReachIn (obstacles : List Cell) (grid_rows grid_cols : ℕ) (start : Cell) :
    ℕ → Cell → Prop
  | refl (k : ℕ) : ReachIn obstacles grid_rows grid_cols start k start
  | step {k : ℕ} {c n : Cell} (hc : ReachIn obstacles grid_rows grid_cols start k c)
      (hn : n ∈ get_neighbors c grid_rows grid_cols) (hobst : n ∉ obstacles) :
      ReachIn obstacles grid_rows grid_cols start (k + 1) n

/-- Plain reachability (any number of hops). -/
def Reachable (obstacles : List Cell) (grid_rows grid_cols : ℕ)
    (start target : Cell) : Prop :=
  ∃ k, ReachIn obstacles grid_rows grid_cols start k target

lemma ReachIn.mono {obstacles : List Cell} {rows cols : ℕ} {start c : Cell}
    {k k2 : ℕ} (h : ReachIn obstacles rows cols start k c) (hk : k ≤ k2) :
    ReachIn obstacles rows cols start k2 c := by
  induction h generalizing k2 with
  | refl k => exact ReachIn.refl k2
  | step hc hn hobst ih =>
    rename_i k c n
    cases k2 with
    | zero => omega
    | succ k3 => exact ReachIn.step (ih (by omega)) hn hobst

/-- The level sets of the flood fill: cells within `k` hops, as a
duplicate-free list. -/
def withinL (start : Cell) (obstacles : List Cell) (grid_rows grid_cols : ℕ) :
    ℕ → List Cell
  | 0 => [start]
  | k + 1 =>
    let W := withinL start obstacles grid_rows grid_cols k
    ((W.flatMap (fun c => get_neighbors c grid_rows grid_cols)).filter
      (fun n => decide (n ∉ obstacles))).foldl setAdd W

lemma mem_withinL_succ {start : Cell} {obstacles : List Cell} {rows cols : ℕ}
    {k : ℕ} {c : Cell} :
    c ∈ withinL start obstacles rows cols (k + 1) ↔
      c ∈ withinL start obstacles rows cols k ∨
        ∃ p ∈ withinL start obstacles rows cols k,
          c ∈ get_neighbors p rows cols ∧ c ∉ obstacles := by
  rw [withinL]
  rw [mem_foldl_setAdd, List.mem_filter, List.mem_flatMap]
  simp only [decide_eq_true_eq]
  tauto

lemma withinL_nodup (start : Cell) (obstacles : List Cell) (rows cols : ℕ) (k : ℕ) :
    (withinL start obstacles rows cols k).Nodup := by
  induction k with
  | zero => simp [withinL]
  | succ k ih => exact foldl_setAdd_nodup _ _ ih

lemma withinL_subset_succ (start : Cell) (obstacles : List Cell) (rows cols : ℕ)
    (k : ℕ) : withinL start obstacles rows cols k ⊆
      withinL start obstacles rows cols (k + 1) :=
  fun _ h => mem_withinL_succ.mpr (Or.inl h)

lemma withinL_mono (start : Cell) (obstacles : List Cell) (rows cols : ℕ)
    {k k2 : ℕ} (h : k ≤ k2) : withinL start obstacles rows cols k ⊆
      withinL start obstacles rows cols k2 := by
  induction k2 with
  | zero =>
    have hk : k = 0 := by omega
    rw [hk]
    exact fun _ h => h
  | succ k3 ih =>
    rcases Nat.lt_or_ge k (k3 + 1) with hlt | hge
    · exact fun x hx => withinL_subset_succ start obstacles rows cols k3
        (ih (by omega) hx)
    · have hk : k = k3 + 1 := by omega
      rw [hk]
      exact fun _ h => h

lemma start_mem_withinL (start : Cell) (obstacles : List Cell) (rows cols : ℕ)
    (k : ℕ) : start ∈ withinL start obstacles rows cols k := by
  induction k with
  | zero => simp [withinL]
  | succ k ih => exact withinL_subset_succ start obstacles rows cols k ih

lemma mem_withinL_iff {start : Cell} {obstacles : List Cell} {rows cols : ℕ}
    {k : ℕ} {c : Cell} :
    c ∈ withinL start obstacles rows cols k ↔ ReachIn obstacles rows cols start k c := by
  constructor
  · intro h
    induction k generalizing c with
    | zero =>
      simp [withinL] at h
      rw [h]
      exact ReachIn.refl 0
    | succ k ih =>
      rcases mem_withinL_succ.mp h with h | ⟨p, hp, hn, hobst⟩
      · exact (ih h).mono (by omega)
      · exact ReachIn.step (ih hp) hn hobst
  · intro h
    induction h with
    | refl k => exact start_mem_withinL start obstacles rows cols k
    | step hc hn hobst ih =>
      exact mem_withinL_succ.mpr (Or.inr ⟨_, ih, hn, hobst⟩)

/-- On an empty (obstacle-free) grid, every in-bounds cell is reachable from
every in-bounds start in exactly its manhattan distance many hops. -/
lemma reach_in_empty (rows cols : ℕ) (start : Cell)
    (hs : is_valid_position start rows cols = true) :
    ∀ (m : ℕ) (c : Cell), manhattan_distance start c = m →
      is_valid_position c rows cols = true →
      ReachIn [] rows cols start m c := by
  obtain ⟨sx, sy⟩ := start
  intro m
  induction m with
  | zero =>
    rintro ⟨cx, cy⟩ hm _
    have h1 : cx = sx ∧ cy = sy := by
      simp only [manhattan_distance] at hm
      omega
    rw [h1.1, h1.2]
    exact ReachIn.refl 0
  | succ m ih =>
    rintro ⟨cx, cy⟩ hm hc
    have hs2 := hs
    have hc2 := hc
    simp only [is_valid_position, decide_eq_true_eq] at hs2 hc2
    have hstep : ∀ px py dx dy : ℤ, (dx, dy) ∈ directions →
        px + dx = cx → py + dy = cy →
        is_valid_position (px, py) rows cols = true →
        manhattan_distance (sx, sy) (px, py) = m →
        ReachIn [] rows cols (sx, sy) (m + 1) (cx, cy) := by
      intro px py dx dy hd hex hey hpv hpm
      refine ReachIn.step (ih (px, py) hpm hpv) ?_ (by simp)
      have he : ((px, py).1 + dx, (px, py).2 + dy) = ((cx : ℤ), (cy : ℤ)) := by
        simp only [Prod.mk.injEq]
        exact ⟨hex, hey⟩
      rw [← he]
      exact mem_get_neighbors.mpr ⟨⟨(dx, dy), hd, rfl⟩, by rw [he]; exact hc⟩
    simp only [manhattan_distance] at hm
    rcases lt_trichotomy cx sx with h1 | h1 | h1
    · refine hstep (cx + 1) cy (-1) 0 (by simp [directions]) (by ring) (by ring) ?_ ?_
      · simp only [is_valid_position, decide_eq_true_eq]
        omega
      · simp only [manhattan_distance]
        omega
    · rcases lt_trichotomy cy sy with h2 | h2 | h2
      · refine hstep cx (cy + 1) 0 (-1) (by simp [directions]) (by ring) (by ring) ?_ ?_
        · simp only [is_valid_position, decide_eq_true_eq]
          omega
        · simp only [manhattan_distance]
          omega
      · exfalso
        omega
      · refine hstep cx (cy - 1) 0 1 (by simp [directions]) (by ring) (by ring) ?_ ?_
        · simp only [is_valid_position, decide_eq_true_eq]
          omega
        · simp only [manhattan_distance]
          omega
    · refine hstep (cx - 1) cy 1 0 (by simp [directions]) (by ring) (by ring) ?_ ?_
      · simp only [is_valid_position, decide_eq_true_eq]
        omega
      · simp only [manhattan_distance]
        omega

/-! ### Flood fill (`SnakeAIAgent._count_reachable_spaces`) -/

/-- Truthiness guard of `if max_depth and depth >= max_depth: continue` in the
source: Python `None` and `0` are both falsy, so the expansion cut applies only
when a nonzero bound is supplied. -/
def floodGuard (max_depth : Option ℕ) (depth : ℕ) : Bool :=
  match max_depth with
  | none => false
  | some d => decide (d ≠ 0) && decide (depth ≥ d)

/-- Worklist loop of `SnakeAIAgent._count_reachable_spaces`: a FIFO queue of
`(position, depth)` pairs (`queue.pop(0)` on a Python list), visited marked at
enqueue, expansion skipped once the depth guard fires. -/
def floodLoop (obstacles : List Cell) (grid_rows grid_cols : ℕ) (max_depth : Option ℕ) :
    ℕ → List (Cell × ℕ) → List Cell → List Cell
  | 0, _, visited => visited
  | _ + 1, [], visited => visited
  | fuel + 1, (pos, depth) :: queue_rest, visited =>
    if floodGuard max_depth depth then
      floodLoop obstacles grid_rows grid_cols max_depth fuel queue_rest visited
    else
      let fresh := (get_neighbors pos grid_rows grid_cols).filter
        (fun n => decide (n ∉ visited) && decide (n ∉ obstacles))
      floodLoop obstacles grid_rows grid_cols max_depth fuel
        (queue_rest ++ fresh.map (fun n => (n, depth + 1))) (visited ++ fresh)

/-- `SnakeAIAgent._count_reachable_spaces`: flood fill from `start` with
`visited = {start}` and `queue = [(start, 0)]`, returning `len(visited)`. -/
def count_reachable_spaces (grid_rows grid_cols : ℕ) (start : Cell)
    (obstacles : List Cell) (max_depth : Option ℕ) : ℕ :=
  (floodLoop obstacles grid_rows grid_cols max_depth
    (2 * (grid_rows * grid_cols) + 2) [(start, 0)] [start]).length

lemma get_neighbors_nodup (p : Cell) (rows cols : ℕ) :
    (get_neighbors p rows cols).Nodup := by
  apply List.Nodup.filter
  refine List.Nodup.map ?_ (by decide)
  intro a b h
  have h1 := congrArg Prod.fst h
  have h2 := congrArg Prod.snd h
  simp only at h1 h2
  have ha : a.1 = b.1 := by omega
  have hb : a.2 = b.2 := by omega
  exact Prod.ext ha hb

lemma floodLoop_guard_congr (obstacles : List Cell) (rows cols : ℕ)
    (md1 md2 : Option ℕ) (hg : ∀ d, floodGuard md1 d = floodGuard md2 d) :
    ∀ (fuel : ℕ) (queue : List (Cell × ℕ)) (visited : List Cell),
      floodLoop obstacles rows cols md1 fuel queue visited =
        floodLoop obstacles rows cols md2 fuel queue visited := by
  intro fuel
  induction fuel with
  | zero => intro queue visited; rfl
  | succ fuel ih =>
    intro queue visited
    cases queue with
    | nil => rfl
    | cons e rest =>
      obtain ⟨pos, depth⟩ := e
      simp only [floodLoop, hg depth]
      split
      · exact ih rest visited
      · exact ih _ _

/-- Master lemma for the flood fill when the depth guard never fires: the
result extends the visited list, stays duplicate-free inside the potential
cells, and is closed under free in-bounds neighbours. -/
lemma floodLoop_unbounded (start : Cell) (obstacles : List Cell) (rows cols : ℕ)
    (md : Option ℕ) (hmd : ∀ d, floodGuard md d = false) :
    ∀ (fuel : ℕ) (queue : List (Cell × ℕ)) (visited : List Cell),
      visited.Nodup →
      visited ⊆ vplus start rows cols →
      (∀ e ∈ queue, e.1 ∈ visited) →
      (∀ v ∈ visited, (∃ e ∈ queue, e.1 = v) ∨
        (∀ n ∈ get_neighbors v rows cols, n ∉ obstacles → n ∈ visited)) →
      queue.length + 2 * unseen start rows cols visited ≤ fuel →
      (visited ⊆ floodLoop obstacles rows cols md fuel queue visited) ∧
      (floodLoop obstacles rows cols md fuel queue visited).Nodup ∧
      (floodLoop obstacles rows cols md fuel queue visited ⊆ vplus start rows cols) ∧
      (∀ v ∈ floodLoop obstacles rows cols md fuel queue visited,
        ∀ n ∈ get_neighbors v rows cols, n ∉ obstacles →
          n ∈ floodLoop obstacles rows cols md fuel queue visited) := by
  intro fuel
  induction fuel with
  | zero =>
    intro queue visited hnd hsub hqv hcl hfuel
    cases queue with
    | nil =>
      refine ⟨fun _ h => h, hnd, hsub, ?_⟩
      intro v hv n hn hno
      rcases hcl v hv with ⟨e, he, _⟩ | hclosed
      · exact absurd he (List.not_mem_nil e)
      · exact hclosed n hn hno
    | cons e rest =>
      simp only [List.length_cons] at hfuel
      omega
  | succ fuel ih =>
    intro queue visited hnd hsub hqv hcl hfuel
    cases queue with
    | nil =>
      refine ⟨fun _ h => h, hnd, hsub, ?_⟩
      intro v hv n hn hno
      rcases hcl v hv with ⟨e, he, _⟩ | hclosed
      · exact absurd he (List.not_mem_nil e)
      · exact hclosed n hn hno
    | cons e rest =>
      obtain ⟨pos, depth⟩ := e
      have hguard := hmd depth
      simp only [floodLoop, hguard, Bool.false_eq_true, if_false]
      have hposv : pos ∈ visited := hqv (pos, depth) (List.mem_cons_self _ _)
      -- the fresh cells: in-bounds, unvisited, free
      have hfresh_mem : ∀ n, n ∈ (get_neighbors pos rows cols).filter
          (fun n => decide (n ∉ visited) && decide (n ∉ obstacles)) ↔
          (n ∈ get_neighbors pos rows cols ∧ n ∉ visited ∧ n ∉ obstacles) := by
        intro n
        simp [List.mem_filter]
      have hfresh_nodup : ((get_neighbors pos rows cols).filter
          (fun n => decide (n ∉ visited) && decide (n ∉ obstacles))).Nodup :=
        (get_neighbors_nodup pos rows cols).filter _
      have hnd2 : (visited ++ (get_neighbors pos rows cols).filter
          (fun n => decide (n ∉ visited) && decide (n ∉ obstacles))).Nodup := by
        rw [List.nodup_append]
        refine ⟨hnd, hfresh_nodup, ?_⟩
        intro a ha hb
        exact ((hfresh_mem a).mp hb).2.1 ha
      have hsub2 : (visited ++ (get_neighbors pos rows cols).filter
          (fun n => decide (n ∉ visited) && decide (n ∉ obstacles))) ⊆
            vplus start rows cols := by
        intro a ha
        rcases List.mem_append.mp ha with ha | ha
        · exact hsub ha
        · exact gridCells_subset_vplus start rows cols
            (get_neighbors_mem_grid ((hfresh_mem a).mp ha).1)
      have hfuel2 : (rest ++ ((get_neighbors pos rows cols).filter
            (fun n => decide (n ∉ visited) && decide (n ∉ obstacles))).map
              (fun n => (n, depth + 1))).length +
          2 * unseen start rows cols (visited ++ (get_neighbors pos rows cols).filter
            (fun n => decide (n ∉ visited) && decide (n ∉ obstacles))) ≤ fuel := by
        have hacc := unseen_append start rows cols visited
          ((get_neighbors pos rows cols).filter
            (fun n => decide (n ∉ visited) && decide (n ∉ obstacles)))
          hfresh_nodup
          (fun x hx => gridCells_subset_vplus start rows cols
            (get_neighbors_mem_grid ((hfresh_mem x).mp hx).1))
          (fun x hx => ((hfresh_mem x).mp hx).2.1)
        simp only [List.length_append, List.length_map, List.length_cons] at hfuel ⊢
        omega
      have hqv2 : ∀ e2 ∈ (rest ++ ((get_neighbors pos rows cols).filter
            (fun n => decide (n ∉ visited) && decide (n ∉ obstacles))).map
              (fun n => (n, depth + 1))),
          e2.1 ∈ visited ++ (get_neighbors pos rows cols).filter
            (fun n => decide (n ∉ visited) && decide (n ∉ obstacles)) := by
        intro e2 he2
        rcases List.mem_append.mp he2 with he2 | he2
        · exact List.mem_append.mpr (Or.inl (hqv e2 (List.mem_cons_of_mem _ he2)))
        · rw [List.mem_map] at he2
          obtain ⟨n, hn, rfl⟩ := he2
          exact List.mem_append.mpr (Or.inr hn)
      have hcl2 : ∀ v ∈ visited ++ (get_neighbors pos rows cols).filter
            (fun n => decide (n ∉ visited) && decide (n ∉ obstacles)),
          (∃ e2 ∈ rest ++ ((get_neighbors pos rows cols).filter
            (fun n => decide (n ∉ visited) && decide (n ∉ obstacles))).map
              (fun n => (n, depth + 1)), e2.1 = v) ∨
          (∀ n ∈ get_neighbors v rows cols, n ∉ obstacles →
            n ∈ visited ++ (get_neighbors pos rows cols).filter
              (fun n => decide (n ∉ visited) && decide (n ∉ obstacles))) := by
        intro v hv
        rcases List.mem_append.mp hv with hv | hv
        · by_cases hvpos : v = pos
          · right
            intro n hn hno
            rw [hvpos] at hn
            by_cases hnv : n ∈ visited
            · exact List.mem_append.mpr (Or.inl hnv)
            · exact List.mem_append.mpr (Or.inr ((hfresh_mem n).mpr ⟨hn, hnv, hno⟩))
          · rcases hcl v hv with ⟨e2, he2, hev⟩ | hclosed
            · rcases List.mem_cons.mp he2 with he2 | he2
              · exfalso
                apply hvpos
                rw [← hev, he2]
              · exact Or.inl ⟨e2, List.mem_append.mpr (Or.inl he2), hev⟩
            · right
              intro n hn hno
              exact List.mem_append.mpr (Or.inl (hclosed n hn hno))
        · left
          refine ⟨(v, depth + 1), ?_, rfl⟩
          exact List.mem_append.mpr (Or.inr (List.mem_map.mpr ⟨v, hv, rfl⟩))
      have hres := ih _ _ hnd2 hsub2 hqv2 hcl2 hfuel2
      refine ⟨?_, hres.2.1, hres.2.2.1, hres.2.2.2⟩
      intro a ha
      exact hres.1 (List.mem_append.mpr (Or.inl ha))

lemma unseen_succ_le_of_mem (start : Cell) (rows cols : ℕ) (visited : List Cell)
    (h : start ∈ visited) :
    unseen start rows cols visited + 1 ≤ (vplus start rows cols).length := by
  unfold unseen
  have hsl := List.filter_sublist (l := vplus start rows cols)
    (p := fun c => decide (c ∉ visited))
  rcases Nat.lt_or_ge ((vplus start rows cols).filter
      (fun c => decide (c ∉ visited))).length (vplus start rows cols).length with
    hlt | hge
  · omega
  · exfalso
    have heq : (vplus start rows cols).filter (fun c => decide (c ∉ visited)) =
        vplus start rows cols :=
      hsl.eq_of_length (le_antisymm hsl.length_le hge)
    have hmem : start ∈ (vplus start rows cols).filter
        (fun c => decide (c ∉ visited)) := by
      rw [heq]
      exact start_mem_vplus start rows cols
    rw [List.mem_filter] at hmem
    simp only [decide_eq_true_eq] at hmem
    exact hmem.2 h

/-- C8: on an empty grid of positive dimensions, the unbounded flood fill from
any in-bounds start counts every cell exactly once: `W*H` cells. -/
theorem count_reachable_empty_grid (start : Cell) (rows cols : ℕ)
    (hrows : 0 < rows) (hcols : 0 < cols)
    (hstart : is_valid_position start rows cols = true) :
    count_reachable_spaces rows cols start [] none = cols * rows := by
  unfold count_reachable_spaces
  have hveq : vplus start rows cols = gridCells rows cols := by
    unfold vplus
    rw [if_pos (mem_gridCells.mpr hstart)]
  have hfuel : (1 : ℕ) + 2 * unseen start rows cols [start] ≤
      2 * (rows * cols) + 2 := by
    have h1 := unseen_succ_le_of_mem start rows cols [start] (by simp)
    have h2 := vplus_length_le start rows cols
    have h3 : rows * cols = cols * rows := Nat.mul_comm rows cols
    omega
  have hres := floodLoop_unbounded start [] rows cols none (fun _ => rfl)
    (2 * (rows * cols) + 2) [(start, 0)] [start]
    (by simp)
    (by
      intro a ha
      simp only [List.mem_singleton] at ha
      rw [ha]
      exact start_mem_vplus start rows cols)
    (by
      intro e he
      simp only [List.mem_singleton] at he
      rw [he]
      simp)
    (by
      intro v hv
      simp only [List.mem_singleton] at hv
      exact Or.inl ⟨(start, 0), by simp, hv.symm⟩)
    (by simpa using hfuel)
  obtain ⟨hsup, hnodup, hsub, hclosed⟩ := hres
  have hstart_mem : start ∈ floodLoop [] rows cols none
      (2 * (rows * cols) + 2) [(start, 0)] [start] := hsup (by simp)
  have hreach_mem : ∀ (k : ℕ) (c : Cell), ReachIn [] rows cols start k c →
      c ∈ floodLoop [] rows cols none (2 * (rows * cols) + 2) [(start, 0)] [start] := by
    intro k c hr
    induction hr with
    | refl k => exact hstart_mem
    | step hc hn hobst ih => exact hclosed _ ih _ hn hobst
  have hsup2 : gridCells rows cols ⊆ floodLoop [] rows cols none
      (2 * (rows * cols) + 2) [(start, 0)] [start] := by
    intro c hc
    exact hreach_mem _ c (reach_in_empty rows cols start hstart
      (manhattan_distance start c) c rfl (mem_gridCells.mp hc))
  have hsub2 : floodLoop [] rows cols none (2 * (rows * cols) + 2)
      [(start, 0)] [start] ⊆ gridCells rows cols := by
    intro c hc
    have := hsub hc
    rwa [hveq] at this
  have hle1 := (hnodup.subperm hsub2).length_le
  have hle2 := ((gridCells_nodup rows cols).subperm hsup2).length_le
  rw [← gridCells_length rows cols]
  omega

/-- Witness for C8 on a concrete 3 by 4 grid: 12 reachable cells. -/
theorem count_reachable_empty_grid_witness :
    count_reachable_spaces 3 4 (1, 2) [] none = 4 * 3 :=
  count_reachable_empty_grid (1, 2) 3 4 (by decide) (by decide) (by decide)

lemma pairwise_map_const_depth (l : List Cell) (k : ℕ) :
    List.Pairwise (fun a b : Cell × ℕ => a.2 ≤ b.2 ∧ b.2 ≤ a.2 + 1)
      (l.map (fun n => (n, k))) := by
  induction l with
  | nil => simp
  | cons a as ih =>
    rw [List.map_cons, List.pairwise_cons]
    refine ⟨?_, ih⟩
    intro b hb
    rw [List.mem_map] at hb
    obtain ⟨n, _, rfl⟩ := hb
    omega

/-- Master lemma for the depth-bounded flood fill (`max_depth = some d`,
`1 ≤ d`): from any state satisfying the level invariants, the loop returns a
duplicate-free list whose members are exactly the cells within `d` hops. -/
lemma floodLoop_bounded (start : Cell) (obstacles : List Cell) (rows cols : ℕ)
    (d : ℕ) (hd : 1 ≤ d) :
    ∀ (fuel : ℕ) (queue : List (Cell × ℕ)) (visited : List Cell),
      start ∈ visited →
      visited.Nodup →
      visited ⊆ vplus start rows cols →
      (∀ e ∈ queue, e.1 ∈ visited) →
      (∀ e ∈ queue, e.1 ∈ withinL start obstacles rows cols e.2 ∧
        (e.2 = 0 ∨ e.1 ∉ withinL start obstacles rows cols (e.2 - 1))) →
      List.Pairwise (fun a b : Cell × ℕ => a.2 ≤ b.2 ∧ b.2 ≤ a.2 + 1) queue →
      (∀ v ∈ visited, v ∈ withinL start obstacles rows cols d) →
      (∀ v ∈ visited, (∃ e ∈ queue, e.1 = v) ∨
        (∀ n ∈ get_neighbors v rows cols, n ∉ obstacles → n ∈ visited) ∨
        v ∉ withinL start obstacles rows cols (d - 1)) →
      (∀ e2 rest2, queue = e2 :: rest2 →
        withinL start obstacles rows cols (min e2.2 d) ⊆ visited) →
      queue.length + 2 * unseen start rows cols visited ≤ fuel →
      (floodLoop obstacles rows cols (some d) fuel queue visited).Nodup ∧
      (∀ c, c ∈ floodLoop obstacles rows cols (some d) fuel queue visited ↔
        c ∈ withinL start obstacles rows cols d) := by
  have hterm : ∀ (visited : List Cell), start ∈ visited → visited.Nodup →
      (∀ v ∈ visited, v ∈ withinL start obstacles rows cols d) →
      (∀ v ∈ visited,
        (∀ n ∈ get_neighbors v rows cols, n ∉ obstacles → n ∈ visited) ∨
        v ∉ withinL start obstacles rows cols (d - 1)) →
      visited.Nodup ∧
      (∀ c, c ∈ visited ↔ c ∈ withinL start obstacles rows cols d) := by
    intro visited hstart hnd hin hcl
    refine ⟨hnd, ?_⟩
    have hsup : ∀ j, j ≤ d → withinL start obstacles rows cols j ⊆ visited := by
      intro j
      induction j with
      | zero =>
        intro _ c hc
        simp only [withinL, List.mem_singleton] at hc
        rw [hc]
        exact hstart
      | succ j ih =>
        intro hj c hc
        rcases mem_withinL_succ.mp hc with hc | ⟨p, hp, hn, hno⟩
        · exact ih (by omega) hc
        · have hpv := ih (by omega) hp
          rcases hcl p hpv with hclosed | hout
          · exact hclosed c hn hno
          · exact absurd (withinL_mono start obstacles rows cols
              (show j ≤ d - 1 by omega) hp) hout
    intro c
    exact ⟨fun h => hin c h, fun h => hsup d (le_refl d) h⟩
  intro fuel
  induction fuel with
  | zero =>
    intro queue visited hstart hnd hsub hqv hlev hpair hin hcl hfront hfuel
    cases queue with
    | nil =>
      refine hterm visited hstart hnd hin ?_
      intro v hv
      rcases hcl v hv with ⟨e, he, _⟩ | h | h
      · exact absurd he (List.not_mem_nil e)
      · exact Or.inl h
      · exact Or.inr h
    | cons e rest =>
      simp only [List.length_cons] at hfuel
      omega
  | succ fuel ih =>
    intro queue visited hstart hnd hsub hqv hlev hpair hin hcl hfront hfuel
    cases queue with
    | nil =>
      refine hterm visited hstart hnd hin ?_
      intro v hv
      rcases hcl v hv with ⟨e, he, _⟩ | h | h
      · exact absurd he (List.not_mem_nil e)
      · exact Or.inl h
      · exact Or.inr h
    | cons e rest =>
      obtain ⟨pos, depth⟩ := e
      have hpairhead := List.pairwise_cons.mp hpair
      by_cases hg : d ≤ depth
      · -- depth guard fires: skip the expansion
        have hguard : floodGuard (some d) depth = true := by
          simp [floodGuard]
          omega
        simp only [floodLoop, hguard, if_true]
        refine ih rest visited hstart hnd hsub
          (fun e he => hqv e (List.mem_cons_of_mem _ he))
          (fun e he => hlev e (List.mem_cons_of_mem _ he))
          hpairhead.2 hin ?_ ?_ (by simp only [List.length_cons] at hfuel; omega)
        · intro v hv
          rcases hcl v hv with ⟨e2, he2, hev⟩ | h | h
          · rcases List.mem_cons.mp he2 with he2 | he2
            · -- the popped entry was the queue witness for v = pos
              right
              right
              have hl := hlev (pos, depth) (List.mem_cons_self _ _)
              rcases hl.2 with hz | hout
              · omega
              · rw [← hev, he2]
                intro hmem
                exact hout (withinL_mono start obstacles rows cols
                  (show d - 1 ≤ depth - 1 by omega) hmem)
            · exact Or.inl ⟨e2, he2, hev⟩
          · exact Or.inr (Or.inl h)
          · exact Or.inr (Or.inr h)
        · intro e2 rest2 heq
          have he2r : e2 ∈ rest := by rw [heq]; exact List.mem_cons_self _ _
          have hde2 := hpairhead.1 e2 he2r
          have hmin : min e2.2 d = d := by omega
          have hmin0 : min depth d = d := by omega
          rw [hmin]
          have := hfront (pos, depth) rest rfl
          rw [hmin0] at this
          exact this
      · -- depth < d: expand the popped node
        have hguard : floodGuard (some d) depth = false := by
          simp [floodGuard]
          omega
        simp only [floodLoop, hguard, Bool.false_eq_true, if_false]
        have hposv : pos ∈ visited := hqv (pos, depth) (List.mem_cons_self _ _)
        have hfresh_mem : ∀ n, n ∈ (get_neighbors pos rows cols).filter
            (fun n => decide (n ∉ visited) && decide (n ∉ obstacles)) ↔
            (n ∈ get_neighbors pos rows cols ∧ n ∉ visited ∧ n ∉ obstacles) := by
          intro n
          simp [List.mem_filter]
        have hfresh_nodup : ((get_neighbors pos rows cols).filter
            (fun n => decide (n ∉ visited) && decide (n ∉ obstacles))).Nodup :=
          (get_neighbors_nodup pos rows cols).filter _
        have hposlev := hlev (pos, depth) (List.mem_cons_self _ _)
        have hfrontd : withinL start obstacles rows cols depth ⊆ visited := by
          have := hfront (pos, depth) rest rfl
          rwa [show min depth d = depth by omega] at this
        -- level facts about the fresh cells
        have hfresh_lev : ∀ n ∈ (get_neighbors pos rows cols).filter
            (fun n => decide (n ∉ visited) && decide (n ∉ obstacles)),
            n ∈ withinL start obstacles rows cols (depth + 1) ∧
              n ∉ withinL start obstacles rows cols depth := by
          intro n hn
          obtain ⟨hnb, hnv, hno⟩ := (hfresh_mem n).mp hn
          refine ⟨mem_withinL_succ.mpr (Or.inr ⟨pos, hposlev.1, hnb, hno⟩), ?_⟩
          intro hmem
          exact hnv (hfrontd hmem)
        refine ih _ _ (List.mem_append.mpr (Or.inl hstart)) ?_ ?_ ?_ ?_ ?_ ?_ ?_ ?_ ?_
        · rw [List.nodup_append]
          refine ⟨hnd, hfresh_nodup, ?_⟩
          intro a ha hb
          exact ((hfresh_mem a).mp hb).2.1 ha
        · intro a ha
          rcases List.mem_append.mp ha with ha | ha
          · exact hsub ha
          · exact gridCells_subset_vplus start rows cols
              (get_neighbors_mem_grid ((hfresh_mem a).mp ha).1)
        · intro e2 he2
          rcases List.mem_append.mp he2 with he2 | he2
          · exact List.mem_append.mpr (Or.inl (hqv e2 (List.mem_cons_of_mem _ he2)))
          · rw [List.mem_map] at he2
            obtain ⟨n, hn, rfl⟩ := he2
            exact List.mem_append.mpr (Or.inr hn)
        · intro e2 he2
          rcases List.mem_append.mp he2 with he2 | he2
          · exact hlev e2 (List.mem_cons_of_mem _ he2)
          · rw [List.mem_map] at he2
            obtain ⟨n, hn, rfl⟩ := he2
            have hfl := hfresh_lev n hn
            exact ⟨hfl.1, Or.inr (by simpa using hfl.2)⟩
        · rw [List.pairwise_append]
          refine ⟨hpairhead.2, pairwise_map_const_depth _ _, ?_⟩
          intro a ha b hb
          rw [List.mem_map] at hb
          obtain ⟨n, _, rfl⟩ := hb
          have := hpairhead.1 a ha
          omega
        · intro v hv
          rcases List.mem_append.mp hv with hv | hv
          · exact hin v hv
          · exact withinL_mono start obstacles rows cols
              (show depth + 1 ≤ d by omega) (hfresh_lev v hv).1
        · intro v hv
          rcases List.mem_append.mp hv with hv | hv
          · rcases hcl v hv with ⟨e2, he2, hev⟩ | h | h
            · rcases List.mem_cons.mp he2 with he2 | he2
              · -- v = pos: now expanded, hence closed
                right
                left
                intro n hn hno
                have hvp : v = pos := by rw [← hev, he2]
                rw [hvp] at hn
                by_cases hnv : n ∈ visited
                · exact List.mem_append.mpr (Or.inl hnv)
                · exact List.mem_append.mpr
                    (Or.inr ((hfresh_mem n).mpr ⟨hn, hnv, hno⟩))
              · exact Or.inl ⟨e2, List.mem_append.mpr (Or.inl he2), hev⟩
            · right
              left
              intro n hn hno
              exact List.mem_append.mpr (Or.inl (h n hn hno))
            · exact Or.inr (Or.inr h)
          · refine Or.inl ⟨(v, depth + 1), ?_, rfl⟩
            exact List.mem_append.mpr (Or.inr (List.mem_map.mpr ⟨v, hv, rfl⟩))
        · -- front-level invariant for the new queue
          intro e2 rest2 heq
          have he2mem : e2 ∈ rest ++ ((get_neighbors pos rows cols).filter
              (fun n => decide (n ∉ visited) && decide (n ∉ obstacles))).map
                (fun n => (n, depth + 1)) := by
            rw [heq]
            exact List.mem_cons_self _ _
          have he2d : e2.2 = depth ∨ e2.2 = depth + 1 := by
            rcases List.mem_append.mp he2mem with h2 | h2
            · have := hpairhead.1 e2 h2
              omega
            · rw [List.mem_map] at h2
              obtain ⟨n, _, rfl⟩ := h2
              exact Or.inr rfl
          rcases he2d with he2d | he2d
          · -- front level unchanged
            rw [he2d, show min depth d = depth by omega]
            intro c hc
            exact List.mem_append.mpr (Or.inl (hfrontd hc))
          · -- front level advanced to depth + 1
            rw [he2d, show min (depth + 1) d = depth + 1 by omega]
            -- every entry of the new queue now has depth at least depth + 1
            have hqd : ∀ e3 ∈ rest ++ ((get_neighbors pos rows cols).filter
                (fun n => decide (n ∉ visited) && decide (n ∉ obstacles))).map
                  (fun n => (n, depth + 1)), depth + 1 ≤ e3.2 := by
              intro e3 he3
              rcases List.mem_append.mp he3 with h3 | h3
              · -- sorted: e2 is the head of the new queue, so e2.2 ≤ e3.2
                have hsort : e3 ∈ e2 :: rest2 := by
                  rw [← heq]
                  exact List.mem_append.mpr (Or.inl h3)
                rcases List.mem_cons.mp hsort with h4 | h4
                · rw [h4, he2d]
                · have hpair2 : List.Pairwise
                      (fun a b : Cell × ℕ => a.2 ≤ b.2 ∧ b.2 ≤ a.2 + 1)
                      (e2 :: rest2) := by
                    rw [← heq]
                    rw [List.pairwise_append]
                    refine ⟨hpairhead.2, pairwise_map_const_depth _ _, ?_⟩
                    intro a ha b hb
                    rw [List.mem_map] at hb
                    obtain ⟨n, _, rfl⟩ := hb
                    have := hpairhead.1 a ha
                    omega
                  have := (List.pairwise_cons.mp hpair2).1 e3 h4
                  omega
              · rw [List.mem_map] at h3
                obtain ⟨n, _, rfl⟩ := h3
                omega
            intro c hc
            rcases mem_withinL_succ.mp hc with hc | ⟨p, hp, hn, hno⟩
            · exact List.mem_append.mpr (Or.inl (hfrontd hc))
            · have hpv : p ∈ visited := hfrontd hp
              -- p cannot still be queued: queued entries sit strictly above depth
              have hpnotq : ¬ ∃ e3 ∈ (pos, depth) :: rest, e3.1 = p ∧ e3 ∈ rest := by
                rintro ⟨e3, _, hep, h3r⟩
                have hl3 := hlev e3 (List.mem_cons_of_mem _ h3r)
                have hd3 := hqd e3 (List.mem_append.mpr (Or.inl h3r))
                rcases hl3.2 with hz | hout
                · omega
                · exact hout (withinL_mono start obstacles rows cols
                    (show depth ≤ e3.2 - 1 by omega) (hep ▸ hp))
              rcases hcl p hpv with ⟨e3, he3, hep⟩ | h | h
              · rcases List.mem_cons.mp he3 with h3 | h3
                · -- p = pos: its fresh neighbours were just added
                  have hppos : p = pos := by rw [← hep, h3]
                  rw [hppos] at hn
                  by_cases hnv : c ∈ visited
                  · exact List.mem_append.mpr (Or.inl hnv)
                  · exact List.mem_append.mpr
                      (Or.inr ((hfresh_mem c).mpr ⟨hn, hnv, hno⟩))
                · exact absurd ⟨e3, List.mem_cons_of_mem _ h3, hep, h3⟩ hpnotq
              · exact List.mem_append.mpr (Or.inl (h c hn hno))
              · exact absurd (withinL_mono start obstacles rows cols
                  (show depth ≤ d - 1 by omega) hp) h
        · have hacc := unseen_append start rows cols visited
            ((get_neighbors pos rows cols).filter
              (fun n => decide (n ∉ visited) && decide (n ∉ obstacles)))
            hfresh_nodup
            (fun x hx => gridCells_subset_vplus start rows cols
              (get_neighbors_mem_grid ((hfresh_mem x).mp hx).1))
            (fun x hx => ((hfresh_mem x).mp hx).2.1)
          simp only [List.length_append, List.length_map, List.length_cons] at hfuel ⊢
          omega

/-- C10: a zero `max_depth` is falsy in the source's guard, so the flood fill
behaves exactly as with no bound; and for every positive bound `d` the count is
exactly the number of cells within `d` hops of the start through free cells. -/
theorem count_reachable_depth_semantics (start : Cell) (obstacles : List Cell)
    (rows cols : ℕ) (hstart : is_valid_position start rows cols = true) :
    (count_reachable_spaces rows cols start obstacles (some 0) =
      count_reachable_spaces rows cols start obstacles none) ∧
    (∀ d : ℕ, 1 ≤ d →
      count_reachable_spaces rows cols start obstacles (some d) =
        (withinL start obstacles rows cols d).length ∧
      (∀ c, c ∈ withinL start obstacles rows cols d ↔
        ReachIn obstacles rows cols start d c)) := by
  constructor
  · unfold count_reachable_spaces
    rw [floodLoop_guard_congr obstacles rows cols (some 0) none
      (by intro k; simp [floodGuard])]
  · intro d hd
    refine ⟨?_, fun c => mem_withinL_iff⟩
    unfold count_reachable_spaces
    have hfuel : (1 : ℕ) + 2 * unseen start rows cols [start] ≤
        2 * (rows * cols) + 2 := by
      have h1 := unseen_succ_le_of_mem start rows cols [start] (by simp)
      have h2 := vplus_length_le start rows cols
      have h3 : rows * cols = cols * rows := Nat.mul_comm rows cols
      omega
    have h := floodLoop_bounded start obstacles rows cols d hd
      (2 * (rows * cols) + 2) [(start, 0)] [start]
      (by simp)
      (by simp)
      (by
        intro a ha
        simp only [List.mem_singleton] at ha
        rw [ha]
        exact start_mem_vplus start rows cols)
      (by
        intro e he
        simp only [List.mem_singleton] at he
        rw [he]
        simp)
      (by
        intro e he
        simp only [List.mem_singleton] at he
        rw [he]
        refine ⟨?_, Or.inl rfl⟩
        simp [withinL])
      (by simp)
      (by
        intro v hv
        simp only [List.mem_singleton] at hv
        rw [hv]
        exact start_mem_withinL start obstacles rows cols d)
      (by
        intro v hv
        simp only [List.mem_singleton] at hv
        exact Or.inl ⟨(start, 0), by simp, hv.symm⟩)
      (by
        intro e2 rest2 heq
        have he2 : e2 = (start, 0) := by
          have := congrArg List.head? heq
          simpa using this.symm
        rw [he2]
        simp only [Nat.zero_min]
        intro c hc
        simp only [withinL, List.mem_singleton] at hc
        simp [hc])
      (by simpa using hfuel)
    obtain ⟨hnodup, hiff⟩ := h
    have hsub : floodLoop obstacles rows cols (some d) (2 * (rows * cols) + 2)
        [(start, 0)] [start] ⊆ withinL start obstacles rows cols d :=
      fun c hc => (hiff c).mp hc
    have hsup : withinL start obstacles rows cols d ⊆
        floodLoop obstacles rows cols (some d) (2 * (rows * cols) + 2)
          [(start, 0)] [start] :=
      fun c hc => (hiff c).mpr hc
    exact le_antisymm (hnodup.subperm hsub).length_le
      (((withinL_nodup start obstacles rows cols d).subperm hsup).length_le)

/-- Witness for C10 on a 4 by 4 grid with one obstacle: the zero bound agrees
with the unbounded call, and the bound 2 counts the two-hop neighbourhood. -/
theorem count_reachable_depth_semantics_witness :
    (count_reachable_spaces 4 4 (1, 1) [(0, 1)] (some 0) =
      count_reachable_spaces 4 4 (1, 1) [(0, 1)] none) ∧
    count_reachable_spaces 4 4 (1, 1) [(0, 1)] (some 2) =
      (withinL (1, 1) [(0, 1)] 4 4 2).length := by
  have h := count_reachable_depth_semantics (1, 1) [(0, 1)] 4 4 (by decide)
  exact ⟨h.1, (h.2 2 (by decide)).1⟩

/-! ### Paths for the search engine (C1, C4) -/

/-- A concrete 4-connected obstacle-avoiding path from `start` to `goal`:
nonempty, starts at `start`, ends at `goal`, and every step moves to an
in-bounds neighbour that is not an obstacle (the start cell itself is not
tested against the obstacle set, exactly as in the searches). -/
def GoodPath (obstacles : List Cell) (grid_rows grid_cols : ℕ)
    (start goal : Cell) (p : List Cell) : Prop :=
  p.head? = some start ∧ p.getLast? = some goal ∧
    List.Chain' (fun a b => b ∈ get_neighbors a grid_rows grid_cols ∧ b ∉ obstacles) p

lemma goodPath_length_pos {obstacles : List Cell} {rows cols : ℕ}
    {start goal : Cell} {p : List Cell} (h : GoodPath obstacles rows cols start goal p) :
    1 ≤ p.length := by
  cases p with
  | nil => simp [GoodPath] at h
  | cons a as => simp

lemma goodPath_singleton {obstacles : List Cell} {rows cols : ℕ} {start : Cell} :
    GoodPath obstacles rows cols start start [start] := by
  refine ⟨rfl, rfl, ?_⟩
  simp

lemma goodPath_extend {obstacles : List Cell} {rows cols : ℕ}
    {start c n : Cell} {p : List Cell}
    (h : GoodPath obstacles rows cols start c p)
    (hn : n ∈ get_neighbors c rows cols) (hno : n ∉ obstacles) :
    GoodPath obstacles rows cols start n (p ++ [n]) := by
  obtain ⟨hh, hl, hc⟩ := h
  refine ⟨?_, ?_, ?_⟩
  · cases p with
    | nil => simp at hh
    | cons a as => simpa using hh
  · simp
  · rw [List.chain'_append]
    refine ⟨hc, by simp, ?_⟩
    intro x hx y hy
    simp only [List.head?_cons, Option.mem_def, Option.some.injEq] at hy
    rw [← hy]
    rw [hl] at hx
    simp only [Option.mem_def, Option.some.injEq] at hx
    rw [← hx]
    exact ⟨hn, hno⟩

lemma goodPath_reachIn {obstacles : List Cell} {rows cols : ℕ} {start : Cell} :
    ∀ (p : List Cell) (c : Cell), GoodPath obstacles rows cols start c p →
      ReachIn obstacles rows cols start (p.length - 1) c := by
  intro p
  induction p using List.reverseRecOn with
  | nil =>
    intro c h
    simp [GoodPath] at h
  | append_singleton q a ih =>
    intro c h
    obtain ⟨hh, hl, hc⟩ := h
    have hac : a = c := by simpa using hl
    cases q with
    | nil =>
      have has : a = start := by simpa using hh
      rw [← hac, has]
      exact ReachIn.refl _
    | cons b bs =>
      rw [List.chain'_append] at hc
      obtain ⟨hc1, -, hc3⟩ := hc
      have hm : (b :: bs).getLast? = some ((b :: bs).getLast (by simp)) :=
        List.getLast?_eq_getLast _ (by simp)
      set m := (b :: bs).getLast (by simp : b :: bs ≠ []) with hmdef
      have hstep := hc3 m (by rw [hm]; rfl) a (by rfl)
      have hgp : GoodPath obstacles rows cols start m (b :: bs) := by
        refine ⟨by simpa using hh, hm, hc1⟩
      have hr := ih m hgp
      have hlen : (b :: bs ++ [a]).length - 1 = ((b :: bs).length - 1) + 1 := by
        simp
      rw [hlen, ← hac]
      exact ReachIn.step hr hstep.1 hstep.2

lemma reachIn_goodPath {obstacles : List Cell} {rows cols : ℕ} {start : Cell}
    {k : ℕ} {c : Cell} (h : ReachIn obstacles rows cols start k c) :
    ∃ p, GoodPath obstacles rows cols start c p ∧ p.length ≤ k + 1 := by
  induction h with
  | refl k => exact ⟨[start], goodPath_singleton, by simp⟩
  | step hc hn hno ih =>
    obtain ⟨p, hp, hl⟩ := ih
    refine ⟨p ++ [_], goodPath_extend hp hn hno, ?_⟩
    simp only [List.length_append, List.length_singleton]
    omega

lemma bfs_pairwise_map (l : List Cell) (p : List Cell) :
    List.Pairwise (fun a b : Cell × List Cell =>
      a.2.length ≤ b.2.length ∧ b.2.length ≤ a.2.length + 1)
      (l.map (fun n => (n, p ++ [n]))) := by
  induction l with
  | nil => simp
  | cons a as ih =>
    rw [List.map_cons, List.pairwise_cons]
    refine ⟨?_, ih⟩
    intro b hb
    rw [List.mem_map] at hb
    obtain ⟨n, _, rfl⟩ := hb
    simp

/-- Master lemma for the BFS worklist: from any state satisfying the level and
closure invariants the loop only grows the visited set and fails with an empty
path and zero cost; a success returns a shortest good path; and a reachable
goal always produces a success. -/
lemma bfsLoop_spec (start goal : Cell) (obstacles : List Cell) (rows cols : ℕ) :
    ∀ (fuel : ℕ) (queue : List (Cell × List Cell)) (visited frontier : List Cell)
      (nexp : ℕ),
      start ∈ visited →
      visited.Nodup →
      visited ⊆ vplus start rows cols →
      (∀ e ∈ queue, e.1 ∈ visited) →
      (∀ e ∈ queue, GoodPath obstacles rows cols start e.1 e.2 ∧
        e.1 ∈ withinL start obstacles rows cols (e.2.length - 1) ∧
        (e.2.length = 1 ∨ e.1 ∉ withinL start obstacles rows cols (e.2.length - 2))) →
      List.Pairwise (fun a b : Cell × List Cell =>
        a.2.length ≤ b.2.length ∧ b.2.length ≤ a.2.length + 1) queue →
      (∀ v ∈ visited, (∃ e ∈ queue, e.1 = v) ∨
        (∀ n ∈ get_neighbors v rows cols, n ∉ obstacles → n ∈ visited)) →
      (∀ e2 rest2, queue = e2 :: rest2 →
        withinL start obstacles rows cols (e2.2.length - 1) ⊆ visited) →
      (goal ∈ visited → ∃ e ∈ queue, e.1 = goal) →
      queue.length + 2 * unseen start rows cols visited ≤ fuel →
      (visited ⊆ (bfsLoop goal obstacles rows cols fuel queue visited frontier nexp).visited) ∧
      ((bfsLoop goal obstacles rows cols fuel queue visited frontier nexp).found = false →
        (bfsLoop goal obstacles rows cols fuel queue visited frontier nexp).path = [] ∧
        (bfsLoop goal obstacles rows cols fuel queue visited frontier nexp).path_cost = 0) ∧
      ((bfsLoop goal obstacles rows cols fuel queue visited frontier nexp).found = true →
        GoodPath obstacles rows cols start goal
          (bfsLoop goal obstacles rows cols fuel queue visited frontier nexp).path ∧
        ∀ p2, GoodPath obstacles rows cols start goal p2 →
          (bfsLoop goal obstacles rows cols fuel queue visited frontier nexp).path.length ≤
            p2.length) ∧
      (Reachable obstacles rows cols start goal →
        (bfsLoop goal obstacles rows cols fuel queue visited frontier nexp).found = true) := by
  have hterm : ∀ (visited : List Cell), start ∈ visited →
      (∀ v ∈ visited, (∀ n ∈ get_neighbors v rows cols, n ∉ obstacles → n ∈ visited)) →
      (goal ∈ visited → False) →
      (Reachable obstacles rows cols start goal → False) := by
    intro visited hstart hcl hng hr
    obtain ⟨k, hk⟩ := hr
    apply hng
    clear hng
    induction hk with
    | refl k => exact hstart
    | step hc hn hno ih => exact hcl _ ih _ hn hno
  intro fuel
  induction fuel with
  | zero =>
    intro queue visited frontier nexp hstart hnd hsub hqv hlev hpair hcl hfront hgq hfuel
    cases queue with
    | nil =>
      refine ⟨fun _ h => h, by simp [bfsLoop], by simp [bfsLoop], ?_⟩
      intro hr
      exfalso
      refine hterm visited hstart ?_ ?_ hr
      · intro v hv
        rcases hcl v hv with ⟨e, he, _⟩ | h
        · exact absurd he (List.not_mem_nil e)
        · exact h
      · intro hg
        obtain ⟨e, he, _⟩ := hgq hg
        exact absurd he (List.not_mem_nil e)
    | cons e rest =>
      simp only [List.length_cons] at hfuel
      omega
  | succ fuel ih =>
    intro queue visited frontier nexp hstart hnd hsub hqv hlev hpair hcl hfront hgq hfuel
    cases queue with
    | nil =>
      refine ⟨fun _ h => h, by simp [bfsLoop], by simp [bfsLoop], ?_⟩
      intro hr
      exfalso
      refine hterm visited hstart ?_ ?_ hr
      · intro v hv
        rcases hcl v hv with ⟨e, he, _⟩ | h
        · exact absurd he (List.not_mem_nil e)
        · exact h
      · intro hg
        obtain ⟨e, he, _⟩ := hgq hg
        exact absurd he (List.not_mem_nil e)
    | cons e rest =>
      obtain ⟨c, p⟩ := e
      have hpairhead := List.pairwise_cons.mp hpair
      have hpairhead1 : ∀ b ∈ rest, p.length ≤ b.2.length ∧ b.2.length ≤ p.length + 1 :=
        hpairhead.1
      have hclev : GoodPath obstacles rows cols start c p ∧
          c ∈ withinL start obstacles rows cols (p.length - 1) ∧
          (p.length = 1 ∨ c ∉ withinL start obstacles rows cols (p.length - 2)) :=
        hlev (c, p) (List.mem_cons_self _ _)
      have hplen : 1 ≤ p.length := goodPath_length_pos hclev.1
      by_cases hcg : c = goal
      · -- goal dequeued: return the recorded path, which is shortest
        have hred : bfsLoop goal obstacles rows cols (fuel + 1) ((c, p) :: rest)
            visited frontier nexp =
            { path := p, visited := visited, frontier := frontier,
              nodes_expanded := nexp + 1, path_cost := p.length, found := true } := by
          simp [bfsLoop, hcg]
        rw [hred]
        refine ⟨fun _ h => h, ?_, ?_, fun _ => rfl⟩
        · intro h
          simp at h
        intro _
        rw [hcg] at hclev
        refine ⟨hclev.1, ?_⟩
        intro p2 hp2
        show p.length ≤ p2.length
        have hr2 := goodPath_reachIn p2 goal hp2
        have hmem2 : goal ∈ withinL start obstacles rows cols (p2.length - 1) :=
          mem_withinL_iff.mpr hr2
        have hp2len : 1 ≤ p2.length := goodPath_length_pos hp2
        rcases hclev.2.2 with h1 | hmin
        · omega
        · by_cases hle : p2.length - 1 ≤ p.length - 2
          · exact absurd (withinL_mono start obstacles rows cols hle hmem2) hmin
          · omega
      · -- expand the dequeued node
        simp only [bfsLoop, hcg, if_false]
        have hposv : c ∈ visited := hqv (c, p) (List.mem_cons_self _ _)
        have hfresh_mem : ∀ n, n ∈ (get_neighbors c rows cols).filter
            (fun n => decide (n ∉ visited) && decide (n ∉ obstacles)) ↔
            (n ∈ get_neighbors c rows cols ∧ n ∉ visited ∧ n ∉ obstacles) := by
          intro n
          simp [List.mem_filter]
        have hfresh_nodup : ((get_neighbors c rows cols).filter
            (fun n => decide (n ∉ visited) && decide (n ∉ obstacles))).Nodup :=
          (get_neighbors_nodup c rows cols).filter _
        have hfrontd : withinL start obstacles rows cols (p.length - 1) ⊆ visited :=
          hfront (c, p) rest rfl
        have hfresh_lev : ∀ n ∈ (get_neighbors c rows cols).filter
            (fun n => decide (n ∉ visited) && decide (n ∉ obstacles)),
            n ∈ withinL start obstacles rows cols p.length ∧
              n ∉ withinL start obstacles rows cols (p.length - 1) := by
          intro n hn
          obtain ⟨hnb, hnv, hno⟩ := (hfresh_mem n).mp hn
          constructor
          · have : n ∈ withinL start obstacles rows cols ((p.length - 1) + 1) :=
              mem_withinL_succ.mpr (Or.inr ⟨c, hclev.2.1, hnb, hno⟩)
            rwa [show p.length - 1 + 1 = p.length by omega] at this
          · intro hmem
            exact hnv (hfrontd hmem)
        have hres := ih
          (rest ++ ((get_neighbors c rows cols).filter
            (fun n => decide (n ∉ visited) && decide (n ∉ obstacles))).map
              (fun n => (n, p ++ [n])))
          (visited ++ (get_neighbors c rows cols).filter
            (fun n => decide (n ∉ visited) && decide (n ∉ obstacles)))
          ((((get_neighbors c rows cols).filter
            (fun n => decide (n ∉ visited) && decide (n ∉ obstacles))).foldl
              setAdd frontier).erase c)
          (nexp + 1)
          (List.mem_append.mpr (Or.inl hstart))
          (by
            rw [List.nodup_append]
            refine ⟨hnd, hfresh_nodup, ?_⟩
            intro a ha hb
            exact ((hfresh_mem a).mp hb).2.1 ha)
          (by
            intro a ha
            rcases List.mem_append.mp ha with ha | ha
            · exact hsub ha
            · exact gridCells_subset_vplus start rows cols
                (get_neighbors_mem_grid ((hfresh_mem a).mp ha).1))
          (by
            intro e2 he2
            rcases List.mem_append.mp he2 with he2 | he2
            · exact List.mem_append.mpr (Or.inl (hqv e2 (List.mem_cons_of_mem _ he2)))
            · rw [List.mem_map] at he2
              obtain ⟨n, hn, rfl⟩ := he2
              exact List.mem_append.mpr (Or.inr hn))
          (by
            intro e2 he2
            rcases List.mem_append.mp he2 with he2 | he2
            · exact hlev e2 (List.mem_cons_of_mem _ he2)
            · rw [List.mem_map] at he2
              obtain ⟨n, hn, rfl⟩ := he2
              obtain ⟨hnb, hnv, hno⟩ := (hfresh_mem n).mp hn
              have hfl := hfresh_lev n hn
              refine ⟨goodPath_extend hclev.1 hnb hno, ?_, ?_⟩
              · simpa using hfl.1
              · right
                have hlen2 : (p ++ [n]).length - 2 = p.length - 1 := by
                  simp only [List.length_append, List.length_singleton]
                  omega
                rw [hlen2]
                exact hfl.2)
          (by
            rw [List.pairwise_append]
            refine ⟨hpairhead.2, bfs_pairwise_map _ _, ?_⟩
            intro a ha b hb
            rw [List.mem_map] at hb
            obtain ⟨n, _, rfl⟩ := hb
            have := hpairhead1 a ha
            simp only [List.length_append, List.length_singleton]
            omega)
          (by
            intro v hv
            rcases List.mem_append.mp hv with hv | hv
            · rcases hcl v hv with ⟨e2, he2, hev⟩ | h
              · rcases List.mem_cons.mp he2 with he2 | he2
                · right
                  intro n hn hno
                  have hvp : v = c := by rw [← hev, he2]
                  rw [hvp] at hn
                  by_cases hnv : n ∈ visited
                  · exact List.mem_append.mpr (Or.inl hnv)
                  · exact List.mem_append.mpr
                      (Or.inr ((hfresh_mem n).mpr ⟨hn, hnv, hno⟩))
                · exact Or.inl ⟨e2, List.mem_append.mpr (Or.inl he2), hev⟩
              · right
                intro n hn hno
                exact List.mem_append.mpr (Or.inl (h n hn hno))
            · refine Or.inl ⟨(v, p ++ [v]), ?_, rfl⟩
              exact List.mem_append.mpr (Or.inr (List.mem_map.mpr ⟨v, hv, rfl⟩)))
          (by
            intro e2 rest2 heq
            have he2mem : e2 ∈ rest ++ ((get_neighbors c rows cols).filter
                (fun n => decide (n ∉ visited) && decide (n ∉ obstacles))).map
                  (fun n => (n, p ++ [n])) := by
              rw [heq]
              exact List.mem_cons_self _ _
            have he2d : e2.2.length = p.length ∨ e2.2.length = p.length + 1 := by
              rcases List.mem_append.mp he2mem with h2 | h2
              · have := hpairhead1 e2 h2
                omega
              · rw [List.mem_map] at h2
                obtain ⟨n, _, rfl⟩ := h2
                right
                simp
            rcases he2d with he2d | he2d
            · rw [he2d]
              intro x hx
              exact List.mem_append.mpr (Or.inl (hfrontd hx))
            · rw [he2d, show p.length + 1 - 1 = (p.length - 1) + 1 by omega]
              have hqd : ∀ e3 ∈ rest ++ ((get_neighbors c rows cols).filter
                  (fun n => decide (n ∉ visited) && decide (n ∉ obstacles))).map
                    (fun n => (n, p ++ [n])), p.length + 1 ≤ e3.2.length := by
                intro e3 he3
                rcases List.mem_append.mp he3 with h3 | h3
                · have hsort : e3 ∈ e2 :: rest2 := by
                    rw [← heq]
                    exact List.mem_append.mpr (Or.inl h3)
                  rcases List.mem_cons.mp hsort with h4 | h4
                  · rw [h4, he2d]
                  · have hpair2 : List.Pairwise (fun a b : Cell × List Cell =>
                        a.2.length ≤ b.2.length ∧ b.2.length ≤ a.2.length + 1)
                        (e2 :: rest2) := by
                      rw [← heq, List.pairwise_append]
                      refine ⟨hpairhead.2, bfs_pairwise_map _ _, ?_⟩
                      intro a ha b hb
                      rw [List.mem_map] at hb
                      obtain ⟨n, _, rfl⟩ := hb
                      have := hpairhead1 a ha
                      simp only [List.length_append, List.length_singleton]
                      omega
                    have := (List.pairwise_cons.mp hpair2).1 e3 h4
                    omega
                · rw [List.mem_map] at h3
                  obtain ⟨n, _, rfl⟩ := h3
                  simp
              intro x hx
              rcases mem_withinL_succ.mp hx with hx | ⟨q, hq, hn, hno⟩
              · exact List.mem_append.mpr (Or.inl (hfrontd hx))
              · have hqvv : q ∈ visited := hfrontd hq
                have hqnotq : ∀ e3 ∈ rest ++ ((get_neighbors c rows cols).filter
                    (fun n => decide (n ∉ visited) && decide (n ∉ obstacles))).map
                      (fun n => (n, p ++ [n])), e3.1 ≠ q := by
                  intro e3 he3 hep
                  have hl3 : e3 ∈ (c, p) :: rest ∨ e3.2.length = p.length + 1 := by
                    rcases List.mem_append.mp he3 with h3 | h3
                    · exact Or.inl (List.mem_cons_of_mem _ h3)
                    · rw [List.mem_map] at h3
                      obtain ⟨n, _, rfl⟩ := h3
                      right
                      simp
                  have hd3 := hqd e3 he3
                  have hlev3 : e3.1 ∈ withinL start obstacles rows cols
                      (e3.2.length - 1) ∧ (e3.2.length = 1 ∨
                        e3.1 ∉ withinL start obstacles rows cols (e3.2.length - 2)) := by
                    rcases hl3 with h3 | h3
                    · exact (hlev e3 h3).2
                    · rcases List.mem_append.mp he3 with h4 | h4
                      · exact (hlev e3 (List.mem_cons_of_mem _ h4)).2
                      · rw [List.mem_map] at h4
                        obtain ⟨n, hn4, rfl⟩ := h4
                        obtain ⟨hnb, hnv, hno4⟩ := (hfresh_mem n).mp hn4
                        have hfl := hfresh_lev n hn4
                        constructor
                        · simpa using hfl.1
                        · right
                          have hlen2 : (p ++ [n]).length - 2 = p.length - 1 := by
                            simp only [List.length_append, List.length_singleton]
                            omega
                          rw [hlen2]
                          exact hfl.2
                  rcases hlev3.2 with h5 | h5
                  · omega
                  · apply h5
                    rw [hep]
                    exact withinL_mono start obstacles rows cols
                      (show p.length - 1 ≤ e3.2.length - 2 by omega) hq
                rcases hcl q hqvv with ⟨e3, he3, hep⟩ | h
                · rcases List.mem_cons.mp he3 with h3 | h3
                  · have hqc : q = c := by rw [← hep, h3]
                    rw [hqc] at hn
                    by_cases hnv : x ∈ visited
                    · exact List.mem_append.mpr (Or.inl hnv)
                    · exact List.mem_append.mpr
                        (Or.inr ((hfresh_mem x).mpr ⟨hn, hnv, hno⟩))
                  · exact absurd hep (hqnotq e3 (List.mem_append.mpr (Or.inl h3)))
                · exact List.mem_append.mpr (Or.inl (h x hn hno)))
          (by
            intro hg
            rcases List.mem_append.mp hg with hg | hg
            · obtain ⟨e2, he2, hev⟩ := hgq hg
              rcases List.mem_cons.mp he2 with he2 | he2
              · exfalso
                apply hcg
                rw [← hev, he2]
              · exact ⟨e2, List.mem_append.mpr (Or.inl he2), hev⟩
            · exact ⟨(goal, p ++ [goal]),
                List.mem_append.mpr (Or.inr (List.mem_map.mpr ⟨goal, hg, rfl⟩)), rfl⟩)
          (by
            have hacc := unseen_append start rows cols visited
              ((get_neighbors c rows cols).filter
                (fun n => decide (n ∉ visited) && decide (n ∉ obstacles)))
              hfresh_nodup
              (fun x hx => gridCells_subset_vplus start rows cols
                (get_neighbors_mem_grid ((hfresh_mem x).mp hx).1))
              (fun x hx => ((hfresh_mem x).mp hx).2.1)
            simp only [List.length_append, List.length_map, List.length_cons] at hfuel ⊢
            omega)
        refine ⟨?_, hres.2.1, hres.2.2.1, hres.2.2.2⟩
        intro a ha
        exact hres.1 (List.mem_append.mpr (Or.inl ha))

/-! ### A* invariants: completeness and soundness -/

lemma lookupG_setG (l : List (Cell × ℕ)) (k : Cell) (v : ℕ) (k2 : Cell) :
    lookupG (setG l k v) k2 = if k2 = k then some v else lookupG l k2 := by
  induction l with
  | nil =>
    by_cases h : k2 = k
    · simp [setG, lookupG, h]
    · have h2 : ¬ k = k2 := fun hh : k = k2 => h hh.symm
      simp [setG, lookupG, h, h2]
  | cons a as ih =>
    obtain ⟨c, g⟩ := a
    by_cases hck : c = k
    · by_cases h : k2 = k
      · simp [setG, lookupG, hck, h]
      · have h2 : ¬ k = k2 := fun hh : k = k2 => h hh.symm
        have h3 : ¬ c = k2 := by
          rw [hck]
          exact h2
        simp [setG, lookupG, hck, h, h2, h3]
    · by_cases h : c = k2
      · have hne : ¬ k2 = k := by
          intro hh
          exact hck (h.trans hh)
        simp [setG, lookupG, hck, h, hne]
      · simp [setG, lookupG, hck, h, ih]

/-- Behaviour of one A* expansion round, as needed for completeness: the heap
only gains entries for fresh free neighbours carrying extended good paths,
`g_scores` keys only grow and end up covering every free unvisited neighbour,
and unvisited keys keep a heap entry. -/
lemma astarExpand_spec {τ : Type} (goal : Cell) (obstacles : List Cell)
    (lt : τ → τ → Bool) (fPlus : ℕ → τ → τ) (hfun : Cell → Cell → τ)
    (visited cur_path : List Cell) (cur_g : ℕ) :
    ∀ (ns : List Cell) (heap : List (AstarEntry τ)) (frontier : List Cell)
      (g_scores : List (Cell × ℕ)) (counter : ℕ),
      (∀ m, m ∉ visited → lookupG g_scores m ≠ none → ∃ e ∈ heap, e.node = m) →
      ∃ add : List (AstarEntry τ),
        (astarExpand goal obstacles lt fPlus hfun visited cur_path cur_g ns
          heap frontier g_scores counter).1 = heap ++ add ∧
        add.length ≤ ns.length ∧
        (∀ e ∈ add, e.node ∈ ns ∧ e.node ∉ visited ∧ e.node ∉ obstacles ∧
          e.path = cur_path ++ [e.node] ∧ e.g = cur_g + 1) ∧
        (∀ n, lookupG g_scores n ≠ none →
          lookupG (astarExpand goal obstacles lt fPlus hfun visited cur_path cur_g ns
            heap frontier g_scores counter).2.2.1 n ≠ none) ∧
        (∀ n ∈ ns, n ∉ visited → n ∉ obstacles →
          lookupG (astarExpand goal obstacles lt fPlus hfun visited cur_path cur_g ns
            heap frontier g_scores counter).2.2.1 n ≠ none) ∧
        (∀ m, m ∉ visited →
          lookupG (astarExpand goal obstacles lt fPlus hfun visited cur_path cur_g ns
            heap frontier g_scores counter).2.2.1 m ≠ none →
          ∃ e ∈ (astarExpand goal obstacles lt fPlus hfun visited cur_path cur_g ns
            heap frontier g_scores counter).1, e.node = m) := by
  intro ns
  induction ns with
  | nil =>
    intro heap frontier g_scores counter hK4
    refine ⟨[], by simp [astarExpand], by simp, by simp, ?_, by simp, ?_⟩
    · intro n h
      simpa [astarExpand] using h
    · intro m hm hkey
      simp only [astarExpand] at hkey ⊢
      obtain ⟨e, he, hen⟩ := hK4 m hm hkey
      exact ⟨e, by simpa using he, hen⟩
  | cons n ns ih =>
    intro heap frontier g_scores counter hK4
    by_cases hskip : n ∈ visited ∨ n ∈ obstacles
    · have hred : astarExpand goal obstacles lt fPlus hfun visited cur_path cur_g
          (n :: ns) heap frontier g_scores counter =
          astarExpand goal obstacles lt fPlus hfun visited cur_path cur_g ns
            heap frontier g_scores counter := by
        simp [astarExpand, hskip]
      rw [hred]
      obtain ⟨add, h1, h2, h3, h4, h5, h6⟩ := ih heap frontier g_scores counter hK4
      refine ⟨add, h1, by simpa using Nat.le_succ_of_le h2, ?_, h4, ?_, h6⟩
      · intro e he
        obtain ⟨ha, hb, hc, hd2, he2⟩ := h3 e he
        exact ⟨List.mem_cons_of_mem _ ha, hb, hc, hd2, he2⟩
      · intro m hm hmv hmo
        rcases List.mem_cons.mp hm with hm | hm
        · exfalso
          rw [hm] at hmv hmo
          rcases hskip with h | h
          · exact hmv h
          · exact hmo h
        · exact h5 m hm hmv hmo
    · push_neg at hskip
      by_cases hb : (match lookupG g_scores n with
        | none => true
        | some old => decide (cur_g + 1 < old)) = true
      · -- push a new entry for n
        have hred : astarExpand goal obstacles lt fPlus hfun visited cur_path cur_g
            (n :: ns) heap frontier g_scores counter =
            astarExpand goal obstacles lt fPlus hfun visited cur_path cur_g ns
              (heap ++ [⟨fPlus (cur_g + 1) (hfun n goal), counter + 1, n,
                cur_path ++ [n], cur_g + 1⟩])
              (setAdd frontier n) (setG g_scores n (cur_g + 1)) (counter + 1) := by
          rw [astarExpand, if_neg (by tauto), if_pos hb]
        rw [hred]
        have hK4b : ∀ m, m ∉ visited → lookupG (setG g_scores n (cur_g + 1)) m ≠ none →
            ∃ e ∈ heap ++ [⟨fPlus (cur_g + 1) (hfun n goal), counter + 1, n,
              cur_path ++ [n], cur_g + 1⟩], e.node = m := by
          intro m hm hkey
          rw [lookupG_setG] at hkey
          by_cases hmn : m = n
          · refine ⟨⟨fPlus (cur_g + 1) (hfun n goal), counter + 1, n,
              cur_path ++ [n], cur_g + 1⟩, by simp, hmn.symm⟩
          · rw [if_neg hmn] at hkey
            obtain ⟨e, he, hen⟩ := hK4 m hm hkey
            exact ⟨e, List.mem_append.mpr (Or.inl he), hen⟩
        obtain ⟨add, h1, h2, h3, h4, h5, h6⟩ := ih _ _ _ _ hK4b
        refine ⟨⟨fPlus (cur_g + 1) (hfun n goal), counter + 1, n,
          cur_path ++ [n], cur_g + 1⟩ :: add, ?_, ?_, ?_, ?_, ?_, h6⟩
        · rw [h1, List.append_assoc]
          rfl
        · simp only [List.length_cons]
          omega
        · intro e he
          rcases List.mem_cons.mp he with he | he
          · rw [he]
            exact ⟨List.mem_cons_self _ _, hskip.1, hskip.2, rfl, rfl⟩
          · obtain ⟨ha, hb2, hc, hd2, he2⟩ := h3 e he
            exact ⟨List.mem_cons_of_mem _ ha, hb2, hc, hd2, he2⟩
        · intro m hkey
          apply h4
          rw [lookupG_setG]
          split
          · simp
          · exact hkey
        · intro m hm hmv hmo
          rcases List.mem_cons.mp hm with hm | hm
          · apply h4
            rw [lookupG_setG, hm]
            simp
          · exact h5 m hm hmv hmo
      · -- g_score not improved: skip, but the key already exists
        have hexist : lookupG g_scores n ≠ none := by
          intro hnone
          rw [hnone] at hb
          simp at hb
        have hred : astarExpand goal obstacles lt fPlus hfun visited cur_path cur_g
            (n :: ns) heap frontier g_scores counter =
            astarExpand goal obstacles lt fPlus hfun visited cur_path cur_g ns
              heap frontier g_scores counter := by
          rw [astarExpand, if_neg (by tauto), if_neg hb]
        rw [hred]
        obtain ⟨add, h1, h2, h3, h4, h5, h6⟩ := ih heap frontier g_scores counter hK4
        refine ⟨add, h1, by simpa using Nat.le_succ_of_le h2, ?_, h4, ?_, h6⟩
        · intro e he
          obtain ⟨ha, hb2, hc, hd2, he2⟩ := h3 e he
          exact ⟨List.mem_cons_of_mem _ ha, hb2, hc, hd2, he2⟩
        · intro m hm hmv hmo
          rcases List.mem_cons.mp hm with hm | hm
          · rw [hm]
            exact h4 n hexist
          · exact h5 m hm hmv hmo

/-- Master lemma for the A* worklist, generic in the heuristic: the loop only
grows the visited set and fails with an empty path and zero cost; a success
returns a good path to the goal; and a reachable goal always produces a
success. -/
lemma astarLoop_complete {τ : Type} (start goal : Cell) (obstacles : List Cell)
    (rows cols : ℕ) (lt : τ → τ → Bool) (fPlus : ℕ → τ → τ)
    (hfun : Cell → Cell → τ) :
    ∀ (fuel : ℕ) (heap : List (AstarEntry τ)) (visited frontier : List Cell)
      (g_scores : List (Cell × ℕ)) (nexp counter : ℕ),
      (∀ e ∈ heap, e.node ∈ vplus start rows cols ∧
        GoodPath obstacles rows cols start e.node e.path) →
      (∀ n, n ∉ visited → lookupG g_scores n ≠ none → ∃ e ∈ heap, e.node = n) →
      (∀ v ∈ visited, ∀ n ∈ get_neighbors v rows cols, n ∉ obstacles →
        (n ∈ visited ∨ lookupG g_scores n ≠ none)) →
      goal ∉ visited →
      (start ∈ visited ∨ ∃ e ∈ heap, e.node = start) →
      visited ⊆ vplus start rows cols →
      heap.length + 5 * unseen start rows cols visited ≤ fuel →
      (visited ⊆ (astarLoop goal obstacles rows cols lt fPlus hfun fuel heap visited
        frontier g_scores nexp counter).visited) ∧
      ((heap ≠ [] ∨ visited ≠ []) → (astarLoop goal obstacles rows cols lt fPlus hfun
        fuel heap visited frontier g_scores nexp counter).visited ≠ []) ∧
      ((astarLoop goal obstacles rows cols lt fPlus hfun fuel heap visited
        frontier g_scores nexp counter).found = false →
        (astarLoop goal obstacles rows cols lt fPlus hfun fuel heap visited
          frontier g_scores nexp counter).path = [] ∧
        (astarLoop goal obstacles rows cols lt fPlus hfun fuel heap visited
          frontier g_scores nexp counter).path_cost = 0) ∧
      ((astarLoop goal obstacles rows cols lt fPlus hfun fuel heap visited
        frontier g_scores nexp counter).found = true →
        GoodPath obstacles rows cols start goal
          (astarLoop goal obstacles rows cols lt fPlus hfun fuel heap visited
            frontier g_scores nexp counter).path) ∧
      (Reachable obstacles rows cols start goal →
        (astarLoop goal obstacles rows cols lt fPlus hfun fuel heap visited
          frontier g_scores nexp counter).found = true) := by
  have hterm : ∀ (visited : List Cell) (g_scores : List (Cell × ℕ)),
      (∀ n, n ∉ visited → lookupG g_scores n ≠ none → False) →
      (∀ v ∈ visited, ∀ n ∈ get_neighbors v rows cols, n ∉ obstacles →
        (n ∈ visited ∨ lookupG g_scores n ≠ none)) →
      goal ∉ visited → start ∈ visited →
      Reachable obstacles rows cols start goal → False := by
    intro visited g_scores hnok hcl hgoal hstart hr
    obtain ⟨k, hk⟩ := hr
    apply hgoal
    clear hgoal
    induction hk with
    | refl k => exact hstart
    | step hc hn hno ihr =>
      rcases hcl _ ihr _ hn hno with h | h
      · exact h
      · rename_i k c n
        by_cases hv : n ∈ visited
        · exact hv
        · exact absurd h (fun hh => hnok n hv hh)
  intro fuel
  induction fuel with
  | zero =>
    intro heap visited frontier g_scores nexp counter hK2 hK4 hK5 hK6 hK7 hsub hfuel
    cases heap with
    | nil =>
      refine ⟨fun _ h => h, ?_, by simp [astarLoop, popMin], by simp [astarLoop, popMin], ?_⟩
      · intro h
        rcases h with h | h
        · exact absurd rfl h
        · simpa [astarLoop, popMin] using h
      intro hr
      exfalso
      refine hterm visited g_scores ?_ hK5 hK6 ?_ hr
      · intro n hn hkey
        obtain ⟨e, he, _⟩ := hK4 n hn hkey
        exact absurd he (List.not_mem_nil e)
      · rcases hK7 with h | ⟨e, he, _⟩
        · exact h
        · exact absurd he (List.not_mem_nil e)
    | cons b bs =>
      simp only [List.length_cons] at hfuel
      omega
  | succ fuel ih =>
    intro heap visited frontier g_scores nexp counter hK2 hK4 hK5 hK6 hK7 hsub hfuel
    rcases hpm : popMin lt heap with _ | ⟨e, rest⟩
    · have hempty : heap = [] := by
        cases heap with
        | nil => rfl
        | cons b bs => simp [popMin] at hpm
      subst hempty
      refine ⟨fun _ h => h, ?_, by simp [astarLoop, popMin], by simp [astarLoop, popMin], ?_⟩
      · intro h
        rcases h with h | h
        · exact absurd rfl h
        · simpa [astarLoop, popMin] using h
      intro hr
      exfalso
      refine hterm visited g_scores ?_ hK5 hK6 ?_ hr
      · intro n hn hkey
        obtain ⟨e, he, _⟩ := hK4 n hn hkey
        exact absurd he (List.not_mem_nil e)
      · rcases hK7 with h | ⟨e, he, _⟩
        · exact h
        · exact absurd he (List.not_mem_nil e)
    · have hperm := popMin_perm lt hpm
      have hlen : heap.length = rest.length + 1 := by
        rw [hperm.length_eq]
        simp
      have hmem_of : ∀ x ∈ rest, x ∈ heap := by
        intro x hx
        exact hperm.symm.subset (List.mem_cons_of_mem _ hx)
      have hein : e ∈ heap := hperm.symm.subset (List.mem_cons_self _ _)
      by_cases hev : e.node ∈ visited
      · -- stale entry: skip it
        have hred : astarLoop goal obstacles rows cols lt fPlus hfun (fuel + 1)
            heap visited frontier g_scores nexp counter =
            astarLoop goal obstacles rows cols lt fPlus hfun fuel
              rest visited frontier g_scores nexp counter := by
          simp [astarLoop, hpm, hev]
        rw [hred]
        have hvne : visited ≠ [] := by
          intro hnil
          rw [hnil] at hev
          exact absurd hev (List.not_mem_nil _)
        have hresk := ih rest visited frontier g_scores nexp counter
          (fun x hx => hK2 x (hmem_of x hx)) ?_ hK5 hK6 ?_ hsub (by omega)
        · exact ⟨hresk.1, fun _ => hresk.2.1 (Or.inr hvne), hresk.2.2⟩
        · intro n hn hkey
          obtain ⟨e2, he2, hen⟩ := hK4 n hn hkey
          rcases List.mem_cons.mp (hperm.subset he2) with h2 | h2
          · exfalso
            rw [h2] at hen
            rw [hen] at hev
            exact hn hev
          · exact ⟨e2, h2, hen⟩
        · rcases hK7 with h | ⟨e2, he2, hen⟩
          · exact Or.inl h
          · rcases List.mem_cons.mp (hperm.subset he2) with h2 | h2
            · left
              rw [h2] at hen
              rw [← hen]
              exact hev
            · exact Or.inr ⟨e2, h2, hen⟩
      · by_cases heg : e.node = goal
        · -- goal finalized: return
          have hred : astarLoop goal obstacles rows cols lt fPlus hfun (fuel + 1)
              heap visited frontier g_scores nexp counter =
              { path := e.path, visited := visited ++ [e.node],
                frontier := frontier.erase e.node, nodes_expanded := nexp + 1,
                path_cost := e.g, found := true } := by
            simp only [astarLoop, hpm]
            rw [if_neg hev, if_pos heg]
          rw [hred]
          refine ⟨?_, by intro h; simp, by intro h; simp at h, ?_, fun _ => rfl⟩
          · intro a ha
            exact List.mem_append.mpr (Or.inl ha)
          · intro _
            show GoodPath obstacles rows cols start goal e.path
            rw [← heg]
            exact (hK2 e hein).2
        · -- expand the finalized node
          have hred : astarLoop goal obstacles rows cols lt fPlus hfun (fuel + 1)
              heap visited frontier g_scores nexp counter =
              astarLoop goal obstacles rows cols lt fPlus hfun fuel
                (astarExpand goal obstacles lt fPlus hfun (visited ++ [e.node])
                  e.path e.g (get_neighbors e.node rows cols) rest
                  (frontier.erase e.node) g_scores counter).1
                (visited ++ [e.node])
                (astarExpand goal obstacles lt fPlus hfun (visited ++ [e.node])
                  e.path e.g (get_neighbors e.node rows cols) rest
                  (frontier.erase e.node) g_scores counter).2.1
                (astarExpand goal obstacles lt fPlus hfun (visited ++ [e.node])
                  e.path e.g (get_neighbors e.node rows cols) rest
                  (frontier.erase e.node) g_scores counter).2.2.1
                (nexp + 1)
                (astarExpand goal obstacles lt fPlus hfun (visited ++ [e.node])
                  e.path e.g (get_neighbors e.node rows cols) rest
                  (frontier.erase e.node) g_scores counter).2.2.2 := by
            simp [astarLoop, hpm, hev, heg]
          rw [hred]
          have hK4exp : ∀ m, m ∉ visited ++ [e.node] → lookupG g_scores m ≠ none →
              ∃ e2 ∈ rest, e2.node = m := by
            intro m hm hkey
            have hmv : m ∉ visited := by
              intro h
              exact hm (List.mem_append.mpr (Or.inl h))
            have hme : m ≠ e.node := by
              intro h
              exact hm (List.mem_append.mpr (Or.inr (by simp [h])))
            obtain ⟨e2, he2, hen⟩ := hK4 m hmv hkey
            rcases List.mem_cons.mp (hperm.subset he2) with h2 | h2
            · exfalso
              rw [h2] at hen
              exact hme hen.symm
            · exact ⟨e2, h2, hen⟩
          obtain ⟨add, hheap, haddlen, hadd, hkeymono, hkeynew, hK4r⟩ :=
            astarExpand_spec goal obstacles lt fPlus hfun (visited ++ [e.node])
              e.path e.g (get_neighbors e.node rows cols) rest
              (frontier.erase e.node) g_scores counter hK4exp
          have hres := ih
            (astarExpand goal obstacles lt fPlus hfun (visited ++ [e.node])
              e.path e.g (get_neighbors e.node rows cols) rest
              (frontier.erase e.node) g_scores counter).1
            (visited ++ [e.node])
            (astarExpand goal obstacles lt fPlus hfun (visited ++ [e.node])
              e.path e.g (get_neighbors e.node rows cols) rest
              (frontier.erase e.node) g_scores counter).2.1
            (astarExpand goal obstacles lt fPlus hfun (visited ++ [e.node])
              e.path e.g (get_neighbors e.node rows cols) rest
              (frontier.erase e.node) g_scores counter).2.2.1
            (nexp + 1)
            (astarExpand goal obstacles lt fPlus hfun (visited ++ [e.node])
              e.path e.g (get_neighbors e.node rows cols) rest
              (frontier.erase e.node) g_scores counter).2.2.2
            (by
              intro x hx
              rw [hheap] at hx
              rcases List.mem_append.mp hx with hx | hx
              · exact hK2 x (hmem_of x hx)
              · obtain ⟨ha, hb2, hc, hd2, he2⟩ := hadd x hx
                constructor
                · exact gridCells_subset_vplus start rows cols
                    (get_neighbors_mem_grid ha)
                · rw [hd2]
                  exact goodPath_extend (hK2 e hein).2 ha hc)
            hK4r
            (by
              intro v hv n hn hno
              rcases List.mem_append.mp hv with hv | hv
              · rcases hK5 v hv n hn hno with h | h
                · exact Or.inl (List.mem_append.mpr (Or.inl h))
                · exact Or.inr (hkeymono n h)
              · simp only [List.mem_singleton] at hv
                rw [hv] at hn
                by_cases hnv : n ∈ visited ++ [e.node]
                · exact Or.inl hnv
                · exact Or.inr (hkeynew n hn hnv hno))
            (by
              intro h
              rcases List.mem_append.mp h with h | h
              · exact hK6 h
              · simp only [List.mem_singleton] at h
                exact heg h.symm)
            (by
              rcases hK7 with h | ⟨e2, he2, hen⟩
              · exact Or.inl (List.mem_append.mpr (Or.inl h))
              · rcases List.mem_cons.mp (hperm.subset he2) with h2 | h2
                · left
                  rw [h2] at hen
                  rw [← hen]
                  exact List.mem_append.mpr (Or.inr (by simp))
                · right
                  refine ⟨e2, ?_, hen⟩
                  rw [hheap]
                  exact List.mem_append.mpr (Or.inl h2))
            (by
              intro a ha
              rcases List.mem_append.mp ha with ha | ha
              · exact hsub ha
              · simp only [List.mem_singleton] at ha
                rw [ha]
                exact (hK2 e hein).1)
            (by
              have hacc := unseen_append start rows cols visited [e.node]
                (by simp) (by simpa using (hK2 e hein).1) (by simpa using hev)
              have hns := get_neighbors_length_le e.node rows cols
              have hl2 : (astarExpand goal obstacles lt fPlus hfun
                  (visited ++ [e.node]) e.path e.g (get_neighbors e.node rows cols)
                  rest (frontier.erase e.node) g_scores counter).1.length =
                  rest.length + add.length := by
                rw [hheap]
                simp
              rw [hl2]
              simp only [List.length_singleton] at hacc
              omega)
          refine ⟨?_, fun _ => hres.2.1 (Or.inr (by simp)), hres.2.2.1,
            hres.2.2.2.1, hres.2.2.2.2⟩
          intro a ha
          exact hres.1 (List.mem_append.mpr (Or.inl ha))

lemma unseen_base_le (start : Cell) (rows cols : ℕ) :
    unseen start rows cols [start] ≤ cols * rows := by
  have h1 := unseen_succ_le_of_mem start rows cols [start] (by simp)
  have h2 := vplus_length_le start rows cols
  omega

/-- Top-level facts about `bfs_search`: failures carry the empty path, zero
cost and a visited set containing `start`; successes return a shortest good
path; and a reachable goal is always found. -/
lemma bfs_search_spec (start goal : Cell) (obstacles : List Cell) (rows cols : ℕ) :
    start ∈ (bfs_search start goal obstacles rows cols).visited ∧
    ((bfs_search start goal obstacles rows cols).found = false →
      (bfs_search start goal obstacles rows cols).path = [] ∧
      (bfs_search start goal obstacles rows cols).path_cost = 0) ∧
    ((bfs_search start goal obstacles rows cols).found = true →
      GoodPath obstacles rows cols start goal
        (bfs_search start goal obstacles rows cols).path ∧
      ∀ p2, GoodPath obstacles rows cols start goal p2 →
        (bfs_search start goal obstacles rows cols).path.length ≤ p2.length) ∧
    (Reachable obstacles rows cols start goal →
      (bfs_search start goal obstacles rows cols).found = true) := by
  have hfuel : (1 : ℕ) + 2 * unseen start rows cols [start] ≤
      2 * (rows * cols) + 2 := by
    have h1 := unseen_base_le start rows cols
    have h3 : rows * cols = cols * rows := Nat.mul_comm rows cols
    omega
  have h := bfsLoop_spec start goal obstacles rows cols (2 * (rows * cols) + 2)
    [(start, [start])] [start] [] 0
    (by simp)
    (by simp)
    (by
      intro a ha
      simp only [List.mem_singleton] at ha
      rw [ha]
      exact start_mem_vplus start rows cols)
    (by
      intro e he
      simp only [List.mem_singleton] at he
      rw [he]
      simp)
    (by
      intro e he
      simp only [List.mem_singleton] at he
      rw [he]
      refine ⟨goodPath_singleton, ?_, Or.inl rfl⟩
      simp [withinL])
    (by simp)
    (by
      intro v hv
      simp only [List.mem_singleton] at hv
      exact Or.inl ⟨(start, [start]), by simp, hv.symm⟩)
    (by
      intro e2 rest2 heq
      have he2 : e2 = (start, [start]) := by
        have := congrArg List.head? heq
        simpa using this.symm
      rw [he2]
      intro x hx
      simp only [List.length_singleton] at hx
      simpa [withinL] using hx)
    (by
      intro hg
      simp only [List.mem_singleton] at hg
      exact ⟨(start, [start]), by simp, hg.symm⟩)
    (by simpa using hfuel)
  unfold bfs_search
  exact ⟨h.1 (by simp), h.2.1, h.2.2.1, h.2.2.2⟩

/-- Facts about the A* loop started from its initial state, generic in the
heuristic machinery and the initial f-score. -/
lemma astar_init_spec {τ : Type} (lt : τ → τ → Bool) (fPlus : ℕ → τ → τ)
    (hfun : Cell → Cell → τ) (start goal : Cell) (obstacles : List Cell)
    (rows cols : ℕ) (f0 : τ) :
    (astarLoop goal obstacles rows cols lt fPlus hfun (5 * (rows * cols) + 6)
      [⟨f0, 0, start, [start], 0⟩] [] [start] [(start, 0)] 0 0).visited ≠ [] ∧
    ((astarLoop goal obstacles rows cols lt fPlus hfun (5 * (rows * cols) + 6)
      [⟨f0, 0, start, [start], 0⟩] [] [start] [(start, 0)] 0 0).found = false →
      (astarLoop goal obstacles rows cols lt fPlus hfun (5 * (rows * cols) + 6)
        [⟨f0, 0, start, [start], 0⟩] [] [start] [(start, 0)] 0 0).path = [] ∧
      (astarLoop goal obstacles rows cols lt fPlus hfun (5 * (rows * cols) + 6)
        [⟨f0, 0, start, [start], 0⟩] [] [start] [(start, 0)] 0 0).path_cost = 0) ∧
    ((astarLoop goal obstacles rows cols lt fPlus hfun (5 * (rows * cols) + 6)
      [⟨f0, 0, start, [start], 0⟩] [] [start] [(start, 0)] 0 0).found = true →
      GoodPath obstacles rows cols start goal
        (astarLoop goal obstacles rows cols lt fPlus hfun (5 * (rows * cols) + 6)
          [⟨f0, 0, start, [start], 0⟩] [] [start] [(start, 0)] 0 0).path) ∧
    (Reachable obstacles rows cols start goal →
      (astarLoop goal obstacles rows cols lt fPlus hfun (5 * (rows * cols) + 6)
        [⟨f0, 0, start, [start], 0⟩] [] [start] [(start, 0)] 0 0).found = true) := by
  have h := astarLoop_complete start goal obstacles rows cols lt fPlus hfun
    (5 * (rows * cols) + 6) [⟨f0, 0, start, [start], 0⟩] [] [start] [(start, 0)] 0 0
    (by
      intro e he
      simp only [List.mem_singleton] at he
      rw [he]
      exact ⟨start_mem_vplus start rows cols, goodPath_singleton⟩)
    (by
      intro n _ hkey
      simp only [lookupG] at hkey
      by_cases hsn : start = n
      · exact ⟨_, List.mem_singleton.mpr rfl, hsn⟩
      · rw [if_neg hsn] at hkey
        exact absurd rfl hkey)
    (by simp)
    (by simp)
    (Or.inr ⟨_, List.mem_singleton.mpr rfl, rfl⟩)
    (by simp)
    (by
      have h1 := unseen_le start rows cols []
      have h3 : rows * cols = cols * rows := Nat.mul_comm rows cols
      simp only [List.length_singleton]
      omega)
  exact ⟨h.2.1 (Or.inl (by simp)), h.2.2.1, h.2.2.2.1, h.2.2.2.2⟩

/-- Top-level facts about `astar_search` (for any heuristic name): failures
carry the empty path, zero cost and a nonempty visited set; successes return a
good path to the goal; and a reachable goal is always found. -/
lemma astar_search_spec (start goal : Cell) (obstacles : List Cell)
    (rows cols : ℕ) (hname : String) :
    (astar_search start goal obstacles rows cols hname).visited ≠ [] ∧
    ((astar_search start goal obstacles rows cols hname).found = false →
      (astar_search start goal obstacles rows cols hname).path = [] ∧
      (astar_search start goal obstacles rows cols hname).path_cost = 0) ∧
    ((astar_search start goal obstacles rows cols hname).found = true →
      GoodPath obstacles rows cols start goal
        (astar_search start goal obstacles rows cols hname).path) ∧
    (Reachable obstacles rows cols start goal →
      (astar_search start goal obstacles rows cols hname).found = true) := by
  unfold astar_search
  cases hget : get_heuristic hname
  · exact astar_init_spec natLtB natFplus manhattanHval start goal obstacles
      rows cols (manhattanHval start goal)
  · exact astar_init_spec euclidLtB euclidFplus euclideanHval start goal obstacles
      rows cols (euclideanHval start goal)

/-- C4: whenever the goal is reachable through free cells both searches succeed,
and when it is not both fail with a non-empty visited set, an empty path and
zero path cost. -/
theorem search_completeness (start goal : Cell) (obstacles : List Cell)
    (rows cols : ℕ) (hname : String) :
    (Reachable obstacles rows cols start goal →
      (bfs_search start goal obstacles rows cols).found = true ∧
      (astar_search start goal obstacles rows cols hname).found = true) ∧
    (¬ Reachable obstacles rows cols start goal →
      (bfs_search start goal obstacles rows cols).found = false ∧
      (bfs_search start goal obstacles rows cols).visited ≠ [] ∧
      (bfs_search start goal obstacles rows cols).path = [] ∧
      (bfs_search start goal obstacles rows cols).path_cost = 0 ∧
      (astar_search start goal obstacles rows cols hname).found = false ∧
      (astar_search start goal obstacles rows cols hname).visited ≠ [] ∧
      (astar_search start goal obstacles rows cols hname).path = [] ∧
      (astar_search start goal obstacles rows cols hname).path_cost = 0) := by
  have hb := bfs_search_spec start goal obstacles rows cols
  have ha := astar_search_spec start goal obstacles rows cols hname
  constructor
  · intro hr
    exact ⟨hb.2.2.2 hr, ha.2.2.2 hr⟩
  · intro hnr
    have hbf : (bfs_search start goal obstacles rows cols).found = false := by
      cases hfound : (bfs_search start goal obstacles rows cols).found
      · rfl
      · exfalso
        apply hnr
        have hgp := (hb.2.2.1 hfound).1
        exact ⟨_, goodPath_reachIn _ goal hgp⟩
    have haf : (astar_search start goal obstacles rows cols hname).found
        = false := by
      cases hfound : (astar_search start goal obstacles rows cols hname).found
      · rfl
      · exfalso
        apply hnr
        have hgp := ha.2.2.1 hfound
        exact ⟨_, goodPath_reachIn _ goal hgp⟩
    refine ⟨hbf, ?_, (hb.2.1 hbf).1, (hb.2.1 hbf).2, haf, ha.1, (ha.2.1 haf).1,
      (ha.2.1 haf).2⟩
    intro hnil
    rw [hnil] at hb
    exact absurd hb.1 (List.not_mem_nil start)

/-- Witness for C4: on a 6 by 6 grid, (5, 5) is reachable from (0, 0) and both
searches find it; with the full wall `y = 2` blocking, both report failure with
the claimed result shape. -/
theorem search_completeness_witness :
    ((bfs_search (0, 0) (5, 5) [] 6 6).found = true ∧
      (astar_search (0, 0) (5, 5) [] 6 6 "manhattan").found = true) ∧
    ((bfs_search (0, 0) (5, 5)
        [(0, 2), (1, 2), (2, 2), (3, 2), (4, 2), (5, 2)] 6 6).found = false ∧
      (bfs_search (0, 0) (5, 5)
        [(0, 2), (1, 2), (2, 2), (3, 2), (4, 2), (5, 2)] 6 6).path = [] ∧
      (astar_search (0, 0) (5, 5)
        [(0, 2), (1, 2), (2, 2), (3, 2), (4, 2), (5, 2)] 6 6 "manhattan").found
          = false) := by
  constructor
  · refine (search_completeness (0, 0) (5, 5) [] 6 6 "manhattan").1 ?_
    refine ⟨10, ?_⟩
    have hr := reach_in_empty 6 6 (0, 0) (by decide) 10 (5, 5) (by decide) (by decide)
    exact hr
  · have h := (search_completeness (0, 0) (5, 5)
      [(0, 2), (1, 2), (2, 2), (3, 2), (4, 2), (5, 2)] 6 6 "manhattan").2 ?_
    · exact ⟨h.1, h.2.2.1, h.2.2.2.2.1⟩
    · intro hr
      have hff : (bfs_search (0, 0) (5, 5)
          [(0, 2), (1, 2), (2, 2), (3, 2), (4, 2), (5, 2)] 6 6).found = false := by
        decide
      have hft := (bfs_search_spec (0, 0) (5, 5)
        [(0, 2), (1, 2), (2, 2), (3, 2), (4, 2), (5, 2)] 6 6).2.2.2 hr
      rw [hft] at hff
      exact absurd hff (by decide)

/-! ### The staircase geodesic used for A* optimality on an empty grid -/

lemma manhattan_triangle (a b c : Cell) :
    manhattan_distance a c ≤ manhattan_distance a b + manhattan_distance b c := by
  unfold manhattan_distance
  omega

lemma manhattan_self (a : Cell) : manhattan_distance a a = 0 := by
  unfold manhattan_distance
  omega

lemma manhattan_eq_zero {a b : Cell} (h : manhattan_distance a b = 0) : a = b := by
  obtain ⟨ax, ay⟩ := a
  obtain ⟨bx, by2⟩ := b
  unfold manhattan_distance at h
  simp only [Prod.mk.injEq]
  omega

/-- One step from `c` toward `goal`: first align the x coordinate, then y. -/
def stairStep (goal c : Cell) : Cell :=
  if c.1 ≠ goal.1 then (c.1 + (goal.1 - c.1).sign, c.2)
  else (c.1, c.2 + (goal.2 - c.2).sign)

/-- The canonical geodesic from `start` to `goal`: `stair i` is the cell after
`i` steps. -/
def stair (start goal : Cell) : ℕ → Cell
  | 0 => start
  | i + 1 => stairStep goal (stair start goal i)

lemma stair_spec (start goal : Cell) :
    ∀ i, i ≤ manhattan_distance start goal →
      manhattan_distance start (stair start goal i) = i ∧
      manhattan_distance (stair start goal i) goal =
        manhattan_distance start goal - i := by
  intro i
  induction i with
  | zero =>
    intro _
    exact ⟨manhattan_self start, by simp [stair]⟩
  | succ i ih =>
    intro hi
    obtain ⟨h1, h2⟩ := ih (by omega)
    have hne : stair start goal i ≠ goal := by
      intro he
      rw [he, manhattan_self] at h2
      omega
    have hsucc : stair start goal (i + 1) = stairStep goal (stair start goal i) := rfl
    rw [hsucc]
    unfold stairStep
    by_cases hx : (stair start goal i).1 ≠ goal.1
    · rw [if_pos hx]
      rcases lt_or_gt_of_ne (fun h => hx h) with hlt | hlt
      · have hsign : (goal.1 - (stair start goal i).1).sign = 1 :=
          Int.sign_eq_one_of_pos (by omega)
        rw [hsign]
        simp only [manhattan_distance] at h1 h2 hi ⊢
        constructor <;> omega
      · have hsign : (goal.1 - (stair start goal i).1).sign = -1 :=
          Int.sign_eq_neg_one_of_neg (by omega)
        rw [hsign]
        simp only [manhattan_distance] at h1 h2 hi ⊢
        constructor <;> omega
    · rw [if_neg hx]
      push_neg at hx
      have hy : (stair start goal i).2 ≠ goal.2 := by
        intro hy
        exact hne (Prod.ext hx hy)
      rcases lt_or_gt_of_ne hy with hlt | hlt
      · have hsign : (goal.2 - (stair start goal i).2).sign = 1 :=
          Int.sign_eq_one_of_pos (by omega)
        rw [hsign]
        simp only [manhattan_distance] at h1 h2 hi ⊢
        constructor <;> omega
      · have hsign : (goal.2 - (stair start goal i).2).sign = -1 :=
          Int.sign_eq_neg_one_of_neg (by omega)
        rw [hsign]
        simp only [manhattan_distance] at h1 h2 hi ⊢
        constructor <;> omega

lemma stair_last (start goal : Cell) :
    stair start goal (manhattan_distance start goal) = goal := by
  have h := (stair_spec start goal (manhattan_distance start goal) (le_refl _)).2
  simp only [Nat.sub_self] at h
  exact manhattan_eq_zero h

lemma stair_valid (start goal : Cell) (rows cols : ℕ)
    (hs : is_valid_position start rows cols = true)
    (hg : is_valid_position goal rows cols = true) :
    ∀ i, i ≤ manhattan_distance start goal →
      is_valid_position (stair start goal i) rows cols = true := by
  intro i hi
  obtain ⟨h1, h2⟩ := stair_spec start goal i hi
  simp only [is_valid_position, decide_eq_true_eq] at hs hg ⊢
  simp only [manhattan_distance] at h1 h2 hi
  omega

lemma stair_adjacent (start goal : Cell) (rows cols : ℕ)
    (hs : is_valid_position start rows cols = true)
    (hg : is_valid_position goal rows cols = true) :
    ∀ i, i < manhattan_distance start goal →
      stair start goal (i + 1) ∈ get_neighbors (stair start goal i) rows cols := by
  intro i hi
  have hvalid := stair_valid start goal rows cols hs hg (i + 1) (by omega)
  obtain ⟨h1, h2⟩ := stair_spec start goal i (by omega)
  have hne : stair start goal i ≠ goal := by
    intro he
    rw [he, manhattan_self] at h2
    omega
  rw [mem_get_neighbors]
  refine ⟨?_, hvalid⟩
  show ∃ d ∈ directions,
    ((stair start goal i).1 + d.1, (stair start goal i).2 + d.2) =
      stair start goal (i + 1)
  have hstep : stair start goal (i + 1) = stairStep goal (stair start goal i) := rfl
  rw [hstep]
  unfold stairStep
  by_cases hx : (stair start goal i).1 ≠ goal.1
  · rw [if_pos hx]
    rcases lt_or_gt_of_ne (fun h => hx h) with hlt | hlt
    · have hsign : (goal.1 - (stair start goal i).1).sign = 1 :=
        Int.sign_eq_one_of_pos (by omega)
      rw [hsign]
      exact ⟨(1, 0), by simp [directions], by simp⟩
    · have hsign : (goal.1 - (stair start goal i).1).sign = -1 :=
        Int.sign_eq_neg_one_of_neg (by omega)
      rw [hsign]
      exact ⟨(-1, 0), by simp [directions], by simp⟩
  · rw [if_neg hx]
    push_neg at hx
    have hy : (stair start goal i).2 ≠ goal.2 := by
      intro hy
      exact hne (Prod.ext hx hy)
    rcases lt_or_gt_of_ne hy with hlt | hlt
    · have hsign : (goal.2 - (stair start goal i).2).sign = 1 :=
        Int.sign_eq_one_of_pos (by omega)
      rw [hsign]
      exact ⟨(0, 1), by simp [directions], by simp⟩
    · have hsign : (goal.2 - (stair start goal i).2).sign = -1 :=
        Int.sign_eq_neg_one_of_neg (by omega)
      rw [hsign]
      exact ⟨(0, -1), by simp [directions], by simp⟩

/-- Behaviour of one A* expansion round under the manhattan heuristic, with the
quantitative facts needed for optimality: new entries carry `g = cur_g + 1` and
`f = g + h(node)`, recorded `g_scores` never increase and never drop below the
true start distance, and every free fresh neighbour ends with a recorded
`g_score` of at most `cur_g + 1`. -/
lemma astarExpand_opt_spec (start goal : Cell) (obstacles : List Cell)
    (visited cur_path : List Cell) (cur_g : ℕ) :
    ∀ (ns : List Cell) (heap : List (AstarEntry ℕ)) (frontier : List Cell)
      (g_scores : List (Cell × ℕ)) (counter : ℕ),
      (∀ m, m ∉ visited → ∀ v, lookupG g_scores m = some v →
        ∃ e ∈ heap, e.node = m ∧ e.g = v) →
      (∀ n v, lookupG g_scores n = some v → manhattan_distance start n ≤ v) →
      (∀ n ∈ ns, manhattan_distance start n ≤ cur_g + 1) →
      ∃ add : List (AstarEntry ℕ),
        (astarExpand goal obstacles natLtB natFplus manhattanHval visited cur_path
          cur_g ns heap frontier g_scores counter).1 = heap ++ add ∧
        add.length ≤ ns.length ∧
        (∀ e ∈ add, e.node ∈ ns ∧ e.node ∉ visited ∧ e.node ∉ obstacles ∧
          e.path = cur_path ++ [e.node] ∧ e.g = cur_g + 1 ∧
          e.f = cur_g + 1 + manhattan_distance e.node goal) ∧
        (∀ n v, lookupG (astarExpand goal obstacles natLtB natFplus manhattanHval
          visited cur_path cur_g ns heap frontier g_scores counter).2.2.1 n =
            some v → manhattan_distance start n ≤ v) ∧
        (∀ n v, lookupG g_scores n = some v →
          ∃ v2, lookupG (astarExpand goal obstacles natLtB natFplus manhattanHval
            visited cur_path cur_g ns heap frontier g_scores counter).2.2.1 n =
              some v2 ∧ v2 ≤ v) ∧
        (∀ n ∈ ns, n ∉ visited → n ∉ obstacles →
          ∃ v, lookupG (astarExpand goal obstacles natLtB natFplus manhattanHval
            visited cur_path cur_g ns heap frontier g_scores counter).2.2.1 n =
              some v ∧ v ≤ cur_g + 1) ∧
        (∀ m, m ∉ visited → ∀ v, lookupG (astarExpand goal obstacles natLtB natFplus
          manhattanHval visited cur_path cur_g ns heap frontier g_scores
            counter).2.2.1 m = some v →
          ∃ e ∈ (astarExpand goal obstacles natLtB natFplus manhattanHval visited
            cur_path cur_g ns heap frontier g_scores counter).1,
              e.node = m ∧ e.g = v) := by
  intro ns
  induction ns with
  | nil =>
    intro heap frontier g_scores counter hK hG hns
    refine ⟨[], by simp [astarExpand], by simp, by simp, ?_, ?_, by simp, ?_⟩
    · intro n v h
      simp only [astarExpand] at h
      exact hG n v h
    · intro n v h
      refine ⟨v, ?_, le_refl v⟩
      simpa [astarExpand] using h
    · intro m hm v hkey
      simp only [astarExpand] at hkey ⊢
      obtain ⟨e, he, hen, heg⟩ := hK m hm v hkey
      exact ⟨e, by simpa using he, hen, heg⟩
  | cons n ns ih =>
    intro heap frontier g_scores counter hK hG hns
    have hns2 : ∀ m ∈ ns, manhattan_distance start m ≤ cur_g + 1 :=
      fun m hm => hns m (List.mem_cons_of_mem _ hm)
    by_cases hskip : n ∈ visited ∨ n ∈ obstacles
    · have hred : astarExpand goal obstacles natLtB natFplus manhattanHval visited
          cur_path cur_g (n :: ns) heap frontier g_scores counter =
          astarExpand goal obstacles natLtB natFplus manhattanHval visited
            cur_path cur_g ns heap frontier g_scores counter := by
        simp [astarExpand, hskip]
      rw [hred]
      obtain ⟨add, h1, hlen, h2, h3, h4, h5, h6⟩ := ih heap frontier g_scores counter hK hG hns2
      refine ⟨add, h1, by simp only [List.length_cons]; omega, ?_, h3, h4, ?_, h6⟩
      · intro e he
        obtain ⟨ha, hb, hc, hd2, he2, hf2⟩ := h2 e he
        exact ⟨List.mem_cons_of_mem _ ha, hb, hc, hd2, he2, hf2⟩
      · intro m hm hmv hmo
        rcases List.mem_cons.mp hm with hm | hm
        · exfalso
          rw [hm] at hmv hmo
          rcases hskip with h | h
          · exact hmv h
          · exact hmo h
        · exact h5 m hm hmv hmo
    · push_neg at hskip
      by_cases hb : (match lookupG g_scores n with
        | none => true
        | some old => decide (cur_g + 1 < old)) = true
      · have hred : astarExpand goal obstacles natLtB natFplus manhattanHval visited
            cur_path cur_g (n :: ns) heap frontier g_scores counter =
            astarExpand goal obstacles natLtB natFplus manhattanHval visited
              cur_path cur_g ns
              (heap ++ [⟨natFplus (cur_g + 1) (manhattanHval n goal), counter + 1, n,
                cur_path ++ [n], cur_g + 1⟩])
              (setAdd frontier n) (setG g_scores n (cur_g + 1)) (counter + 1) := by
          rw [astarExpand, if_neg (by tauto), if_pos hb]
        rw [hred]
        have hKb : ∀ m, m ∉ visited → ∀ v,
            lookupG (setG g_scores n (cur_g + 1)) m = some v →
            ∃ e ∈ heap ++ [⟨natFplus (cur_g + 1) (manhattanHval n goal), counter + 1,
              n, cur_path ++ [n], cur_g + 1⟩], e.node = m ∧ e.g = v := by
          intro m hm v hkey
          rw [lookupG_setG] at hkey
          by_cases hmn : m = n
          · rw [if_pos hmn] at hkey
            refine ⟨⟨natFplus (cur_g + 1) (manhattanHval n goal), counter + 1, n,
              cur_path ++ [n], cur_g + 1⟩, by simp, hmn.symm, ?_⟩
            have hv : cur_g + 1 = v := Option.some.inj hkey
            simp [← hv]
          · rw [if_neg hmn] at hkey
            obtain ⟨e, he, hen, heg⟩ := hK m hm v hkey
            exact ⟨e, List.mem_append.mpr (Or.inl he), hen, heg⟩
        have hGb : ∀ m v, lookupG (setG g_scores n (cur_g + 1)) m = some v →
            manhattan_distance start m ≤ v := by
          intro m v hkey
          rw [lookupG_setG] at hkey
          by_cases hmn : m = n
          · rw [if_pos hmn] at hkey
            rw [hmn, ← Option.some.inj hkey]
            exact hns n (List.mem_cons_self _ _)
          · rw [if_neg hmn] at hkey
            exact hG m v hkey
        obtain ⟨add, h1, hlen, h2, h3, h4, h5, h6⟩ := ih _ _ _ _ hKb hGb hns2
        refine ⟨⟨natFplus (cur_g + 1) (manhattanHval n goal), counter + 1, n,
          cur_path ++ [n], cur_g + 1⟩ :: add, ?_, by simp only [List.length_cons]; omega, ?_, h3, ?_, ?_, h6⟩
        · rw [h1, List.append_assoc]
          rfl
        · intro e he
          rcases List.mem_cons.mp he with he | he
          · rw [he]
            exact ⟨List.mem_cons_self _ _, hskip.1, hskip.2, rfl, rfl, rfl⟩
          · obtain ⟨ha, hb2, hc, hd2, he2, hf2⟩ := h2 e he
            exact ⟨List.mem_cons_of_mem _ ha, hb2, hc, hd2, he2, hf2⟩
        · intro m v hkey
          by_cases hmn : m = n
          · have hold : ∃ old, lookupG g_scores n = some old ∧ cur_g + 1 < old := by
              rcases hll : lookupG g_scores n with _ | old
              · exfalso
                rw [hmn] at hkey
                rw [hll] at hkey
                cases hkey
              · rw [hll] at hb
                simp only [decide_eq_true_eq] at hb
                exact ⟨old, rfl, hb⟩
            obtain ⟨old, hlo, hlt⟩ := hold
            have hkv : old = v := by
              rw [hmn] at hkey
              rw [hlo] at hkey
              exact Option.some.inj hkey
            have hmid : lookupG (setG g_scores n (cur_g + 1)) m = some (cur_g + 1) := by
              rw [lookupG_setG, if_pos hmn]
            obtain ⟨v2, hv2, hv2le⟩ := h4 m (cur_g + 1) hmid
            exact ⟨v2, hv2, by omega⟩
          · have hmid : lookupG (setG g_scores n (cur_g + 1)) m = some v := by
              rw [lookupG_setG, if_neg hmn]
              exact hkey
            exact h4 m v hmid
        · intro m hm hmv hmo
          rcases List.mem_cons.mp hm with hm | hm
          · have hmid : lookupG (setG g_scores n (cur_g + 1)) m = some (cur_g + 1) := by
              rw [lookupG_setG, if_pos hm]
            obtain ⟨v2, hv2, hv2le⟩ := h4 m (cur_g + 1) hmid
            exact ⟨v2, hv2, hv2le⟩
          · exact h5 m hm hmv hmo
      · have hold : ∃ old, lookupG g_scores n = some old ∧ old ≤ cur_g + 1 := by
          rcases hll : lookupG g_scores n with _ | old
          · exfalso
            rw [hll] at hb
            simp at hb
          · rw [hll] at hb
            simp only [decide_eq_true_eq] at hb
            exact ⟨old, rfl, by omega⟩
        obtain ⟨old, hlo, hle⟩ := hold
        have hred : astarExpand goal obstacles natLtB natFplus manhattanHval visited
            cur_path cur_g (n :: ns) heap frontier g_scores counter =
            astarExpand goal obstacles natLtB natFplus manhattanHval visited
              cur_path cur_g ns heap frontier g_scores counter := by
          rw [astarExpand, if_neg (by tauto), if_neg hb]
        rw [hred]
        obtain ⟨add, h1, hlen, h2, h3, h4, h5, h6⟩ := ih heap frontier g_scores counter hK hG hns2
        refine ⟨add, h1, by simp only [List.length_cons]; omega, ?_, h3, h4, ?_, h6⟩
        · intro e he
          obtain ⟨ha, hb2, hc, hd2, he2, hf2⟩ := h2 e he
          exact ⟨List.mem_cons_of_mem _ ha, hb2, hc, hd2, he2, hf2⟩
        · intro m hm hmv hmo
          rcases List.mem_cons.mp hm with hm | hm
          · obtain ⟨v2, hv2, hv2le⟩ := h4 n old hlo
            rw [hm]
            exact ⟨v2, hv2, by omega⟩
          · exact h5 m hm hmv hmo

/-- In any A* state satisfying the optimality invariants where the goal is
still unvisited, some heap entry sits on the staircase geodesic with an exactly
optimal `g`, so its `f`-score equals the start-goal distance. -/
lemma astar_witness_entry (start goal : Cell) (heap : List (AstarEntry ℕ))
    (visited : List Cell) (g_scores : List (Cell × ℕ))
    (hK : ∀ m, m ∉ visited → ∀ v, lookupG g_scores m = some v →
      ∃ e ∈ heap, e.node = m ∧ e.g = v)
    (hO4 : ∀ j, j < manhattan_distance start goal → stair start goal j ∈ visited →
      stair start goal (j + 1) ∈ visited ∨
      lookupG g_scores (stair start goal (j + 1)) = some (j + 1))
    (hO5 : lookupG g_scores start = some 0)
    (hO3 : goal ∉ visited) :
    ∃ e ∈ heap, e.node ∉ visited ∧
      e.g + manhattan_distance e.node goal = manhattan_distance start goal := by
  have hPM : stair start goal (manhattan_distance start goal) ∉ visited := by
    rw [stair_last]
    exact hO3
  have hex : ∃ j, stair start goal j ∉ visited := ⟨_, hPM⟩
  have h0 : stair start goal (Nat.find hex) ∉ visited := Nat.find_spec hex
  have hle : Nat.find hex ≤ manhattan_distance start goal := Nat.find_min' hex hPM
  rcases hj : Nat.find hex with _ | j
  · rw [hj] at h0
    have h0s : start ∉ visited := by simpa [stair] using h0
    obtain ⟨e, he, hen, heg⟩ := hK start h0s 0 hO5
    refine ⟨e, he, ?_, ?_⟩
    · rw [hen]
      exact h0s
    · rw [hen, heg]
      omega
  · rw [hj] at h0 hle
    have hprev : stair start goal j ∈ visited := by
      by_contra hc
      exact Nat.find_min hex (by omega) hc
    rcases hO4 j (by omega) hprev with hvis | hkey
    · exact absurd hvis h0
    · obtain ⟨e, he, hen, heg⟩ := hK _ h0 (j + 1) hkey
      have hsp := (stair_spec start goal (j + 1) (by omega)).2
      refine ⟨e, he, ?_, ?_⟩
      · rw [hen]
        exact h0
      · rw [hen, heg, hsp]
        omega

/-- Master lemma for A* optimality on an obstacle-free grid with the manhattan
heuristic: from any state satisfying the invariants the loop terminates with a
found path of exactly `manhattan_distance start goal + 1` cells and reported
cost `manhattan_distance start goal`. -/
lemma astarLoop_optimal (start goal : Cell) (rows cols : ℕ)
    (hs : is_valid_position start rows cols = true)
    (hg : is_valid_position goal rows cols = true) :
    ∀ (fuel : ℕ) (heap : List (AstarEntry ℕ)) (visited frontier : List Cell)
      (g_scores : List (Cell × ℕ)) (nexp counter : ℕ),
      (∀ e ∈ heap, e.node ∈ vplus start rows cols ∧
        GoodPath [] rows cols start e.node e.path ∧
        e.path.length = e.g + 1 ∧
        e.f = e.g + manhattan_distance e.node goal ∧
        manhattan_distance start e.node ≤ e.g) →
      (∀ m, m ∉ visited → ∀ v, lookupG g_scores m = some v →
        ∃ e ∈ heap, e.node = m ∧ e.g = v) →
      (∀ n v, lookupG g_scores n = some v → manhattan_distance start n ≤ v) →
      goal ∉ visited →
      (∀ j, j < manhattan_distance start goal → stair start goal j ∈ visited →
        stair start goal (j + 1) ∈ visited ∨
        lookupG g_scores (stair start goal (j + 1)) = some (j + 1)) →
      lookupG g_scores start = some 0 →
      heap.length + 5 * unseen start rows cols visited ≤ fuel →
      (astarLoop goal [] rows cols natLtB natFplus manhattanHval fuel heap visited
        frontier g_scores nexp counter).found = true ∧
      (astarLoop goal [] rows cols natLtB natFplus manhattanHval fuel heap visited
        frontier g_scores nexp counter).path.length =
          manhattan_distance start goal + 1 ∧
      (astarLoop goal [] rows cols natLtB natFplus manhattanHval fuel heap visited
        frontier g_scores nexp counter).path_cost = manhattan_distance start goal := by
  intro fuel
  induction fuel with
  | zero =>
    intro heap visited frontier g_scores nexp counter hO1 hK hG hO3 hO4 hO5 hfuel
    exfalso
    obtain ⟨w, hw, hwnv, hwf⟩ :=
      astar_witness_entry start goal heap visited g_scores hK hO4 hO5 hO3
    cases heap with
    | nil => exact absurd hw (List.not_mem_nil w)
    | cons b bs =>
      simp only [List.length_cons] at hfuel
      omega
  | succ fuel ih =>
    intro heap visited frontier g_scores nexp counter hO1 hK hG hO3 hO4 hO5 hfuel
    obtain ⟨w, hw, hwnv, hwf⟩ :=
      astar_witness_entry start goal heap visited g_scores hK hO4 hO5 hO3
    rcases hpm : popMin natLtB heap with _ | ⟨e, rest⟩
    · exfalso
      cases heap with
      | nil => exact absurd hw (List.not_mem_nil w)
      | cons b bs => simp [popMin] at hpm
    · have hperm := popMin_perm natLtB hpm
      have hlen : heap.length = rest.length + 1 := by
        rw [hperm.length_eq]
        simp
      have hmem_of : ∀ x ∈ rest, x ∈ heap :=
        fun x hx => hperm.symm.subset (List.mem_cons_of_mem _ hx)
      have hein : e ∈ heap := hperm.symm.subset (List.mem_cons_self _ _)
      by_cases hev : e.node ∈ visited
      · -- stale entry: skip it
        have hred : astarLoop goal [] rows cols natLtB natFplus manhattanHval
            (fuel + 1) heap visited frontier g_scores nexp counter =
            astarLoop goal [] rows cols natLtB natFplus manhattanHval fuel
              rest visited frontier g_scores nexp counter := by
          simp [astarLoop, hpm, hev]
        rw [hred]
        exact ih rest visited frontier g_scores nexp counter
          (fun x hx => hO1 x (hmem_of x hx))
          (by
            intro m hm v hkey
            obtain ⟨e2, he2, hen, heg⟩ := hK m hm v hkey
            rcases List.mem_cons.mp (hperm.subset he2) with h2 | h2
            · exfalso
              rw [h2] at hen
              rw [hen] at hev
              exact hm hev
            · exact ⟨e2, h2, hen, heg⟩)
          hG hO3 hO4 hO5 (by omega)
      · -- the popped entry is finalized, with a provably optimal f-score
        have hO1e := hO1 e hein
        have hO1w := hO1 w hw
        have hmin := popMin_min hpm w hw
        have hwfM : w.f = manhattan_distance start goal := by
          rw [hO1w.2.2.2.1]
          exact hwf
        have htri := manhattan_triangle start e.node goal
        have hef : e.f = e.g + manhattan_distance e.node goal := hO1e.2.2.2.1
        have hmds : manhattan_distance start e.node ≤ e.g := hO1e.2.2.2.2
        have hgeq : e.g = manhattan_distance start e.node := by
          rcases hmin with h | h <;> omega
        have hfM : e.g + manhattan_distance e.node goal =
            manhattan_distance start goal := by
          rcases hmin with h | h <;> omega
        by_cases heg2 : e.node = goal
        · -- goal reached: the returned path has optimal length and cost
          have hred : astarLoop goal [] rows cols natLtB natFplus manhattanHval
              (fuel + 1) heap visited frontier g_scores nexp counter =
              { path := e.path, visited := visited ++ [e.node],
                frontier := frontier.erase e.node, nodes_expanded := nexp + 1,
                path_cost := e.g, found := true } := by
            simp only [astarLoop, hpm]
            rw [if_neg hev, if_pos heg2]
          rw [hred]
          have hgoalg : e.g = manhattan_distance start goal := by
            rw [heg2] at hgeq hfM
            rw [manhattan_self] at hfM
            omega
          refine ⟨rfl, ?_, ?_⟩
          · show e.path.length = manhattan_distance start goal + 1
            rw [hO1e.2.2.1, hgoalg]
          · show e.g = manhattan_distance start goal
            exact hgoalg
        · -- expand the finalized node
          have hred : astarLoop goal [] rows cols natLtB natFplus manhattanHval
              (fuel + 1) heap visited frontier g_scores nexp counter =
              astarLoop goal [] rows cols natLtB natFplus manhattanHval fuel
                (astarExpand goal [] natLtB natFplus manhattanHval
                  (visited ++ [e.node]) e.path e.g
                  (get_neighbors e.node rows cols) rest
                  (frontier.erase e.node) g_scores counter).1
                (visited ++ [e.node])
                (astarExpand goal [] natLtB natFplus manhattanHval
                  (visited ++ [e.node]) e.path e.g
                  (get_neighbors e.node rows cols) rest
                  (frontier.erase e.node) g_scores counter).2.1
                (astarExpand goal [] natLtB natFplus manhattanHval
                  (visited ++ [e.node]) e.path e.g
                  (get_neighbors e.node rows cols) rest
                  (frontier.erase e.node) g_scores counter).2.2.1
                (nexp + 1)
                (astarExpand goal [] natLtB natFplus manhattanHval
                  (visited ++ [e.node]) e.path e.g
                  (get_neighbors e.node rows cols) rest
                  (frontier.erase e.node) g_scores counter).2.2.2 := by
            simp [astarLoop, hpm, hev, heg2]
          rw [hred]
          have hKexp : ∀ m, m ∉ visited ++ [e.node] → ∀ v,
              lookupG g_scores m = some v → ∃ x ∈ rest, x.node = m ∧ x.g = v := by
            intro m hm v hkey
            have hmv : m ∉ visited := by
              intro h
              exact hm (List.mem_append.mpr (Or.inl h))
            have hme : m ≠ e.node := by
              intro h
              exact hm (List.mem_append.mpr (Or.inr (by simp [h])))
            obtain ⟨e2, he2, hen, heg⟩ := hK m hmv v hkey
            rcases List.mem_cons.mp (hperm.subset he2) with h2 | h2
            · exfalso
              rw [h2] at hen
              exact hme hen.symm
            · exact ⟨e2, h2, hen, heg⟩
          have hnsb : ∀ n ∈ get_neighbors e.node rows cols,
              manhattan_distance start n ≤ e.g + 1 := by
            intro n hn
            have hsucc := (manhattan_succ_of_neighbor (q := start) hn).1
            omega
          obtain ⟨add, hheap, haddlen, hadd, hG2, hmono, hnew, hK2⟩ :=
            astarExpand_opt_spec start goal [] (visited ++ [e.node]) e.path e.g
              (get_neighbors e.node rows cols) rest (frontier.erase e.node)
              g_scores counter hKexp hG hnsb
          exact ih
            (astarExpand goal [] natLtB natFplus manhattanHval
              (visited ++ [e.node]) e.path e.g (get_neighbors e.node rows cols)
              rest (frontier.erase e.node) g_scores counter).1
            (visited ++ [e.node])
            (astarExpand goal [] natLtB natFplus manhattanHval
              (visited ++ [e.node]) e.path e.g (get_neighbors e.node rows cols)
              rest (frontier.erase e.node) g_scores counter).2.1
            (astarExpand goal [] natLtB natFplus manhattanHval
              (visited ++ [e.node]) e.path e.g (get_neighbors e.node rows cols)
              rest (frontier.erase e.node) g_scores counter).2.2.1
            (nexp + 1)
            (astarExpand goal [] natLtB natFplus manhattanHval
              (visited ++ [e.node]) e.path e.g (get_neighbors e.node rows cols)
              rest (frontier.erase e.node) g_scores counter).2.2.2
            (by
              intro x hx
              rw [hheap] at hx
              rcases List.mem_append.mp hx with hx | hx
              · exact hO1 x (hmem_of x hx)
              · obtain ⟨ha, hb2, hc, hd2, he2, hf2⟩ := hadd x hx
                refine ⟨gridCells_subset_vplus start rows cols
                    (get_neighbors_mem_grid ha), ?_, ?_, ?_, ?_⟩
                · rw [hd2]
                  exact goodPath_extend hO1e.2.1 ha hc
                · rw [hd2]
                  simp only [List.length_append, List.length_singleton]
                  rw [hO1e.2.2.1, he2]
                · rw [hf2, he2]
                · rw [he2]
                  exact hnsb x.node ha)
            hK2
            hG2
            (by
              intro h
              rcases List.mem_append.mp h with h | h
              · exact hO3 h
              · simp only [List.mem_singleton] at h
                exact heg2 h.symm)
            (by
              intro j hj hjv
              rcases List.mem_append.mp hjv with hjv | hjv
              · rcases hO4 j hj hjv with h | h
                · exact Or.inl (List.mem_append.mpr (Or.inl h))
                · obtain ⟨v2, hv2, hv2le⟩ := hmono _ _ h
                  have hge := hG2 _ _ hv2
                  have hsp := (stair_spec start goal (j + 1) (by omega)).1
                  right
                  have hveq : v2 = j + 1 := by
                    rw [hsp] at hge
                    omega
                  rw [hveq] at hv2
                  exact hv2
              · simp only [List.mem_singleton] at hjv
                have hstj : e.g = j := by
                  rw [hgeq, ← hjv]
                  exact (stair_spec start goal j (by omega)).1
                have hadj := stair_adjacent start goal rows cols hs hg j hj
                rw [hjv] at hadj
                by_cases hv2m : stair start goal (j + 1) ∈ visited ++ [e.node]
                · exact Or.inl hv2m
                · obtain ⟨v, hvk, hvle⟩ := hnew _ hadj hv2m (by simp)
                  have hge := hG2 _ _ hvk
                  have hsp := (stair_spec start goal (j + 1) (by omega)).1
                  right
                  have hveq : v = j + 1 := by
                    rw [hsp] at hge
                    omega
                  rw [hveq] at hvk
                  exact hvk)
            (by
              obtain ⟨v2, hv2, hv2le⟩ := hmono start 0 hO5
              have hveq : v2 = 0 := by omega
              rw [← hveq]
              exact hv2)
            (by
              have hacc := unseen_append start rows cols visited [e.node]
                (by simp) (by simpa using hO1e.1) (by simpa using hev)
              have hns4 := get_neighbors_length_le e.node rows cols
              have hl2 : (astarExpand goal [] natLtB natFplus manhattanHval
                  (visited ++ [e.node]) e.path e.g (get_neighbors e.node rows cols)
                  rest (frontier.erase e.node) g_scores counter).1.length =
                  rest.length + add.length := by
                rw [hheap]
                simp
              rw [hl2]
              simp only [List.length_singleton] at hacc
              omega)

/-- C1: for in-bounds free start and goal, whenever `bfs_search` succeeds its
path is shortest among all 4-connected obstacle-avoiding paths; and on an
obstacle-free grid `astar_search` with the manhattan heuristic succeeds with a
path of exactly `manhattan_distance start goal + 1` cells and `path_cost` equal
to that distance. -/
theorem search_optimality (start goal : Cell) (obstacles : List Cell)
    (rows cols : ℕ)
    (hs : is_valid_position start rows cols = true)
    (hg : is_valid_position goal rows cols = true)
    (hsfree : start ∉ obstacles) (hgfree : goal ∉ obstacles) :
    ((bfs_search start goal obstacles rows cols).found = true →
      GoodPath obstacles rows cols start goal
        (bfs_search start goal obstacles rows cols).path ∧
      ∀ p2, GoodPath obstacles rows cols start goal p2 →
        (bfs_search start goal obstacles rows cols).path.length ≤ p2.length) ∧
    (astar_search start goal [] rows cols "manhattan").found = true ∧
    (astar_search start goal [] rows cols "manhattan").path.length =
      manhattan_distance start goal + 1 ∧
    (astar_search start goal [] rows cols "manhattan").path_cost =
      manhattan_distance start goal := by
  have hh : get_heuristic "manhattan" = HeuristicFn.manhattan_heuristic := by
    decide
  have hcall : astar_search start goal [] rows cols "manhattan" =
      astarLoop goal [] rows cols natLtB natFplus manhattanHval
        (5 * (rows * cols) + 6)
        [⟨manhattanHval start goal, 0, start, [start], 0⟩] [] [start]
        [(start, 0)] 0 0 := by
    unfold astar_search
    rw [hh]
  have hopt := astarLoop_optimal start goal rows cols hs hg
    (5 * (rows * cols) + 6)
    [⟨manhattanHval start goal, 0, start, [start], 0⟩] [] [start] [(start, 0)] 0 0
    (by
      intro e he
      simp only [List.mem_singleton] at he
      rw [he]
      refine ⟨start_mem_vplus start rows cols, goodPath_singleton, by simp, ?_, ?_⟩
      · show manhattanHval start goal = 0 + manhattan_distance start goal
        simp [manhattanHval]
      · show manhattan_distance start start ≤ 0
        simp [manhattan_self])
    (by
      intro m _ v hkey
      simp only [lookupG] at hkey
      by_cases hsn : start = m
      · rw [if_pos hsn] at hkey
        exact ⟨_, List.mem_singleton.mpr rfl, hsn, Option.some.inj hkey⟩
      · rw [if_neg hsn] at hkey
        cases hkey)
    (by
      intro n v hkey
      simp only [lookupG] at hkey
      by_cases hsn : start = n
      · rw [← hsn, manhattan_self]
        omega
      · rw [if_neg hsn] at hkey
        cases hkey)
    (by simp)
    (by
      intro j hj hjv
      simp at hjv)
    (by simp [lookupG])
    (by
      have h1 := unseen_le start rows cols []
      have h3 : rows * cols = cols * rows := Nat.mul_comm rows cols
      simp only [List.length_singleton]
      omega)
  rw [hcall]
  exact ⟨(bfs_search_spec start goal obstacles rows cols).2.2.1, hopt⟩

/-- Witness for C1: on an empty 6 by 6 grid with start (0, 0) and goal (5, 5),
BFS succeeds with a good path, and A* with the manhattan heuristic reports a
path of 11 cells with cost 10. -/
theorem search_optimality_witness :
    GoodPath [] 6 6 (0, 0) (5, 5) (bfs_search (0, 0) (5, 5) [] 6 6).path ∧
    (astar_search (0, 0) (5, 5) [] 6 6 "manhattan").found = true ∧
    (astar_search (0, 0) (5, 5) [] 6 6 "manhattan").path.length = 11 ∧
    (astar_search (0, 0) (5, 5) [] 6 6 "manhattan").path_cost = 10 := by
  have h := search_optimality (0, 0) (5, 5) [] 6 6 (by decide) (by decide)
    (by decide) (by decide)
  have hm : manhattan_distance ((0 : ℤ), (0 : ℤ)) ((5 : ℤ), (5 : ℤ)) = 10 := by
    decide
  refine ⟨(h.1 (by decide)).1, h.2.1, ?_, ?_⟩
  · rw [h.2.2.1, hm]
  · rw [h.2.2.2, hm]

/-! ### The agent's survival strategy (`agent.py` and `game.py`) -/

/-- A snapshot of the `SnakeGame` fields the agent reads: body (head first),
food, grid dimensions and current direction. -/
structure GameState where
  snake : List Cell
  food : Cell
  grid_rows : ℕ
  grid_cols : ℕ
  direction : Cell
  deriving Repr, DecidableEq

/-- `SnakeGame.is_position_safe`: inside the grid and not on `snake[1:]`. -/
def is_position_safe (g : GameState) (pos : Cell) : Bool :=
  is_valid_position pos g.grid_rows g.grid_cols && decide (pos ∉ g.snake.drop 1)

/-- `SnakeGame.get_safe_neighbors`: the four neighbours, in offset order,
filtered by `is_position_safe`. -/
def get_safe_neighbors (g : GameState) (pos : Cell) : List Cell :=
  (directions.map (fun d => (pos.1 + d.1, pos.2 + d.2))).filter
    (fun n => is_position_safe g n)

/-- The agent's algorithm dispatch (`'bfs'` or anything else meaning A*), as
used by `_plan_path` and `_is_food_reachable_safely`. -/
def runSearch (algorithm heuristic : String) (start goal : Cell)
    (obstacles : List Cell) (rows cols : ℕ) : SearchResult :=
  if algorithm = "bfs" then bfs_search start goal obstacles rows cols
  else astar_search start goal obstacles rows cols heuristic

/-- `SnakeAIAgent._is_food_reachable_safely`: a path to food must exist, and
after simulating the grown snake at the food the tail must still be reachable
by an A* manhattan search. -/
def is_food_reachable_safely (g : GameState) (algorithm heuristic : String) : Bool :=
  let result := runSearch algorithm heuristic g.snake.headI g.food
    (g.snake.drop 1) g.grid_rows g.grid_cols
  if !result.found then false
  else
    (astar_search g.food ((g.food :: g.snake).getLastI)
      ((g.food :: g.snake).drop 1).dropLast g.grid_rows g.grid_cols
      "manhattan").found

/-- `SnakeAIAgent._verify_move_safety`: flood-fill count from the candidate
head with the post-move body `sim_snake[1:]` as obstacles, compared against
`len(snake) + 5`. -/
def verify_move_safety (g : GameState) (next_pos : Cell) : Bool :=
  decide (g.snake.length + 5 ≤ count_reachable_spaces g.grid_rows g.grid_cols
    next_pos ((next_pos :: g.snake.dropLast).drop 1) none)

/-- `SnakeAIAgent._plan_path`: run the selected search from head to food with
`snake[1:]` as obstacles; keep the path only if it is found and survives the
movement simulation, else store the empty path. -/
def plan_path (g : GameState) (algorithm heuristic : String) : List Cell :=
  let result := runSearch algorithm heuristic g.snake.headI g.food
    (g.snake.drop 1) g.grid_rows g.grid_cols
  if result.found then
    if simulate_snake_movement g.snake result.path then result.path else []
  else []

/-- Python's `max(..., key=f)` on a nonempty list: keep the first element whose
key no later element strictly exceeds. -/
def pyMaxBy (f : Cell → ℕ) : Cell → List Cell → Cell
  | best, [] => best
  | best, x :: xs => if f best < f x then pyMaxBy f x xs else pyMaxBy f best xs

/-- `SnakeAIAgent._find_safe_move`: the safe neighbour maximizing the flood
count with the whole body as obstacles, or the current direction if none. -/
def find_safe_move (g : GameState) : Cell :=
  match get_safe_neighbors g g.snake.headI with
  | [] => g.direction
  | x :: xs =>
    let best := pyMaxBy (fun n => count_reachable_spaces g.grid_rows g.grid_cols
      n g.snake none) x xs
    (best.1 - g.snake.headI.1, best.2 - g.snake.headI.2)

/-- `SnakeAIAgent._hamiltonian_fallback`: chase the tail with A* manhattan
(body minus head and tail as obstacles); fall back to `_find_safe_move`. -/
def hamiltonian_fallback (g : GameState) : Cell :=
  let result := astar_search g.snake.headI g.snake.getLastI
    ((g.snake.drop 1).dropLast) g.grid_rows g.grid_cols "manhattan"
  if result.found ∧ 1 < result.path.length then
    (result.path.tail.headI.1 - g.snake.headI.1,
     result.path.tail.headI.2 - g.snake.headI.2)
  else find_safe_move g

/-- The decision kernel of `SnakeAIAgent._survival_strategy`: the committed
target-seeking step (`path[1]` of the planned path), or `none` when any of the
three guards fails and control falls through to the fallback. -/
def survival_commit (g : GameState) (algorithm heuristic : String) : Option Cell :=
  if is_food_reachable_safely g algorithm heuristic then
    if 1 < (plan_path g algorithm heuristic).length then
      if verify_move_safety g (plan_path g algorithm heuristic).tail.headI then
        some (plan_path g algorithm heuristic).tail.headI
      else none
    else none
  else none

/-- `SnakeAIAgent._survival_strategy`: the direction toward the committed step,
or `_hamiltonian_fallback` when no step is committed. -/
def survival_strategy (g : GameState) (algorithm heuristic : String) : Cell :=
  match survival_commit g algorithm heuristic with
  | some next_pos =>
    (next_pos.1 - g.snake.headI.1, next_pos.2 - g.snake.headI.2)
  | none => hamiltonian_fallback g

/-- C5: in survival mode, a committed target-seeking step always has a
flood-fill count (from the candidate head, with the post-move body minus its
head as obstacles) of at least the body length plus the margin 5; and a
candidate first step with a smaller count is rejected, the strategy returning
the tail-chase fallback instead. -/
theorem survival_safety_gate (g : GameState) (algorithm heuristic : String) :
    (∀ next_pos, survival_commit g algorithm heuristic = some next_pos →
      g.snake.length + 5 ≤ count_reachable_spaces g.grid_rows g.grid_cols
        next_pos ((next_pos :: g.snake.dropLast).drop 1) none) ∧
    (∀ next_pos,
      is_food_reachable_safely g algorithm heuristic = true →
      1 < (plan_path g algorithm heuristic).length →
      (plan_path g algorithm heuristic).tail.headI = next_pos →
      count_reachable_spaces g.grid_rows g.grid_cols next_pos
        ((next_pos :: g.snake.dropLast).drop 1) none < g.snake.length + 5 →
      survival_strategy g algorithm heuristic = hamiltonian_fallback g) := by
  constructor
  · intro next_pos hc
    unfold survival_commit at hc
    split at hc
    · split at hc
      · split at hc
        · rename_i hv
          have hx := Option.some.inj hc
          rw [← hx]
          unfold verify_move_safety at hv
          simp only [decide_eq_true_eq] at hv
          exact hv
        · cases hc
      · cases hc
    · cases hc
  · intro next_pos h1 h2 h3 h4
    have hcn : survival_commit g algorithm heuristic = none := by
      unfold survival_commit
      have hvf : ¬ verify_move_safety g
          (plan_path g algorithm heuristic).tail.headI = true := by
        unfold verify_move_safety
        simp only [decide_eq_true_eq]
        rw [h3]
        omega
      rw [if_pos h1, if_pos h2, if_neg hvf]
    unfold survival_strategy
    rw [hcn]

/-- Witness for C5: a 6 by 6 snapshot where the agent commits to (3, 2) and the
flood count from there is large enough; and a cramped 2-row, 3-column snapshot
where food is safely reachable and a plan exists, but the candidate step (0, 1)
sees only 5 reachable cells (fewer than 2 + 5), so the strategy falls back. -/
theorem survival_safety_gate_witness :
    (survival_commit ⟨[(2, 2), (1, 2)], (4, 2), 6, 6, (1, 0)⟩ "astar" "manhattan" =
      some (3, 2) ∧
      (2 + 5 : ℕ) ≤ count_reachable_spaces 6 6 (3, 2)
        (((3, 2) :: [(2, 2), (1, 2)].dropLast).drop 1) none) ∧
    (is_food_reachable_safely ⟨[(0, 0), (1, 0)], (2, 0), 2, 3, (1, 0)⟩
        "astar" "manhattan" = true ∧
      count_reachable_spaces 2 3 (0, 1)
        (((0, 1) :: [(0, 0), (1, 0)].dropLast).drop 1) none < 2 + 5 ∧
      survival_strategy ⟨[(0, 0), (1, 0)], (2, 0), 2, 3, (1, 0)⟩ "astar" "manhattan" =
        hamiltonian_fallback ⟨[(0, 0), (1, 0)], (2, 0), 2, 3, (1, 0)⟩) := by
  constructor
  · have hc : survival_commit ⟨[(2, 2), (1, 2)], (4, 2), 6, 6, (1, 0)⟩
        "astar" "manhattan" = some (3, 2) := by decide
    exact ⟨hc, (survival_safety_gate ⟨[(2, 2), (1, 2)], (4, 2), 6, 6, (1, 0)⟩
      "astar" "manhattan").1 (3, 2) hc⟩
  · refine ⟨by decide, by decide,
      (survival_safety_gate ⟨[(0, 0), (1, 0)], (2, 0), 2, 3, (1, 0)⟩
        "astar" "manhattan").2 (0, 1) (by decide) (by decide) (by decide)
        (by decide)⟩

/-! ### The alpha-beta agent (`agent_alphabeta.py`) -/

/-- The slice of a game-state dict built by the alpha-beta agent's simulators. -/
structure ABState where
  snake : List Cell
  food : Cell
  game_over : Bool
  deriving Repr, DecidableEq

/-- A raised Python exception. -/
inductive PyError where
  | attributeError (name : String)
  deriving Repr, DecidableEq

/-- Python float scores with `-math.inf` and `math.inf`. -/
abbrev EScore := WithBot (WithTop ℤ)

/-- `AlphaBetaAgent._count_free_space`: flood fill from `pos` with the state's
`snake[1:]` as obstacles and the fixed depth limit 8. -/
def count_free_space (g : GameState) (pos : Cell) (s : ABState) : ℕ :=
  (floodLoop (s.snake.drop 1) g.grid_rows g.grid_cols (some 8)
    (2 * (g.grid_rows * g.grid_cols) + 2) [(pos, 0)] [pos]).length

/-- `AlphaBetaAgent._evaluate_state`: the weighted sum of food distance, free
space, tail distance, centrality and length, or -10000 on a lost state. -/
def evaluate_state (g : GameState) (s : ABState) : ℤ :=
  if s.game_over then -10000
  else
    -(manhattan_distance s.snake.headI s.food : ℤ) * 10 +
    (count_free_space g s.snake.headI s : ℤ) * 15 +
    (if 1 < s.snake.length then
      (manhattan_distance s.snake.headI s.snake.getLastI : ℤ) * 5
     else 0) +
    -(manhattan_distance s.snake.headI
        (((g.grid_cols / 2 : ℕ) : ℤ), ((g.grid_rows / 2 : ℕ) : ℤ)) : ℤ) * 2 +
    (s.snake.length : ℤ) * 20

/-- `AlphaBetaAgent._simulate_move`: step the live game's body to `next_pos`
(growing on food), and flag game over on a body hit or out-of-bounds cell. -/
def simulate_move (g : GameState) (next_pos : Cell) : ABState :=
  { snake := if next_pos = g.food then next_pos :: g.snake
             else next_pos :: g.snake.dropLast,
    food := g.food,
    game_over := decide (next_pos ∈ g.snake) ||
      !(is_valid_position next_pos g.grid_rows g.grid_cols) }

/-- `AlphaBetaAgent._simulate_move_from_state`: the same step applied to a
simulated state. -/
def simulate_move_from_state (g : GameState) (s : ABState) (next_pos : Cell) :
    ABState :=
  { snake := if next_pos = s.food then next_pos :: s.snake
             else next_pos :: s.snake.dropLast,
    food := s.food,
    game_over := decide (next_pos ∈ s.snake) ||
      !(is_valid_position next_pos g.grid_rows g.grid_cols) }

/-- The module-level `_is_safe_in_state` of `agent_alphabeta.py`.  It is
defined outside the `AlphaBetaAgent` class body (the `def` is not indented
under the class), so it is a plain function of the module and never becomes a
method: an attribute lookup `self._is_safe_in_state` fails. -/
def is_safe_in_state (g : GameState) (pos : Cell) (s : ABState) : Bool :=
  is_valid_position pos g.grid_rows g.grid_cols && decide (pos ∉ s.snake.drop 1)

/-- `AlphaBetaAgent._minimax`: after the terminal checks, both the maximizing
and minimizing branches iterate over the head's neighbours and evaluate
`self._is_safe_in_state(...)` on the first one, which raises
`AttributeError` because `_is_safe_in_state` is not a class attribute; with no
neighbours the loop body never runs and the code returns the state
evaluation (the `max_eval == -inf` / `min_eval == inf` fallback). -/
def minimax (g : GameState) (s : ABState) (depth : ℤ)
    (alpha beta : EScore) (maximizing : Bool) : Except PyError ℤ :=
  if depth = 0 ∨ s.game_over = true then Except.ok (evaluate_state g s)
  else
    match get_neighbors s.snake.headI g.grid_rows g.grid_cols with
    | [] => Except.ok (evaluate_state g s)
    | _ :: _ => Except.error (PyError.attributeError "_is_safe_in_state")

/-- The move-scoring loop of `AlphaBetaAgent.get_next_move`: simulate each
safe neighbour, call `_minimax(..., max_depth - 1, -inf, inf, False)`
(propagating a raised exception), and keep the first strictly-best direction. -/
def get_next_move_go (g : GameState) (max_depth : ℤ) :
    List Cell → Option Cell → EScore → Except PyError (Option Cell)
  | [], best_move, _ => Except.ok best_move
  | next_pos :: rest, best_move, best_value =>
    match minimax g (simulate_move g next_pos) (max_depth - 1) ⊥ ⊤ false with
    | Except.error e => Except.error e
    | Except.ok value =>
      if best_value < ((value : WithTop ℤ) : EScore) then
        get_next_move_go g max_depth rest
          (some (next_pos.1 - g.snake.headI.1, next_pos.2 - g.snake.headI.2))
          ((value : WithTop ℤ) : EScore)
      else
        get_next_move_go g max_depth rest best_move best_value

/-- `AlphaBetaAgent.get_next_move`: collect the safe neighbours of the head,
fall back to the current direction when there are none (or no best move), and
otherwise score the moves with `_minimax`, which can raise. -/
def get_next_move (g : GameState) (max_depth : ℤ) : Except PyError Cell :=
  match (get_neighbors g.snake.headI g.grid_rows g.grid_cols).filter
      (fun n => is_position_safe g n) with
  | [] => Except.ok g.direction
  | m :: ms =>
    match get_next_move_go g max_depth (m :: ms) none ⊥ with
    | Except.error e => Except.error e
    | Except.ok none => Except.ok g.direction
    | Except.ok (some d) => Except.ok d

/-- C3 (refuted as stated): on a well-formed snapshot — a 6 by 6 grid, the
duplicate-free two-cell body [(2, 2), (1, 2)], food (4, 4) off the body, valid
direction, and the constructor-default `max_depth = 4` — `get_next_move` does
not return a direction: it raises `AttributeError` for `_is_safe_in_state`,
because that helper is defined at module level instead of inside the class,
so the very first `_minimax` call on a non-terminal simulated state fails. -/
theorem get_next_move_raises :
    get_next_move ⟨[(2, 2), (1, 2)], (4, 4), 6, 6, (1, 0)⟩ 4 =
      Except.error (PyError.attributeError "_is_safe_in_state") := by
  rfl
